import Mathlib

/-!
The CT upload client (`src/client/ct.cc`).

A shallow embedding of the wire codec and of the blocking read/write loops of
`CTClient`, followed by theorems about them.

Conventions of the embedding.

* A byte is a natural number; a `size_t` is a natural number and the places
  where the code does `size_t` arithmetic reduce modulo `2 ^ 64` (LP64).
  `int` and `unsigned int` are 32 bits wide.
* `assert` is live (no `NDEBUG`): a failing assertion ends the run with the
  `Fault` naming the assertion; the state reached so far is kept so that
  theorems can speak about what had happened by then.
* The socket is the environment.  It is modelled by `Sys`: the bytes the peer
  sends (`incoming`), the bytes accepted from the client so far (`wire`), and
  a `script` telling, for the i-th system call on the socket, how many bytes
  the socket is prepared to move at most (a value `≤ 0` is a call that makes
  no progress or fails).  As with POSIX `read`/`write`, a call never moves
  more bytes than were requested, and it returns the number of bytes moved.
* The enumerators `ct::UPLOAD_BUNDLE` and `ct::SUBMITTED` come from
  `include/ct.h`; they are parameters of the functions that use them.
* Loops take fuel; a loop that would not end gives `Fault.diverge` (`none`
  for `HexString`).  The theorems show when that cannot happen.
-/

deriving instance DecidableEq for Except

namespace CT

/-! ## Machine arithmetic -/

/-- Conversion of a (64-bit `ssize_t`) value to `int`: the low 32 bits, read
as a two's complement number. -/
def toInt32 (r : Int) : Int := (r + 2147483648) % 4294967296 - 2147483648

/-- Left shift of a 32-bit operand, as a 32-bit pattern: `x << k` reduced
modulo `2 ^ 32` (for `k ≥ 32` the C++ result is undefined; the model keeps the
reduction). -/
def shl32 (x k : Nat) : Nat := (x * 2 ^ k) % 4294967296

/-- Conversion of an `int`, given by its 32-bit pattern, to `size_t`: sign
extension to 64 bits. -/
def intToSizeT (v : Nat) : Nat :=
  if v < 2147483648 then v else v + (18446744073709551616 - 4294967296)

/-! ## HexString (lines 14-23) -/

/-- The table `nibble[] = "0123456789abcdef"`. -/
def nibble : List Char := "0123456789abcdef".data

/-- The loop of `HexString`: `i` is an `unsigned int`, so `++i` wraps at
`2 ^ 32`.  `none` when the fuel runs out. -/
def HexStringLoop : Nat → List Nat → Nat → List Char → Option (List Char)
  | 0, data, i, ret => if i < data.length then none else some ret
  | fuel + 1, data, i, ret =>
    if i < data.length then
      let ret1 := ret ++ [nibble.getD ((data.getD i 0 >>> 4) &&& 0xf) '0']
      let ret2 := ret1 ++ [nibble.getD (data.getD i 0 &&& 0xf) '0']
      HexStringLoop fuel data ((i + 1) % 4294967296) ret2
    else some ret

/-- The function `HexString(data)`; the result is the character sequence of
the returned `std::string`.  A run that terminates makes exactly
`data.size()` iterations, so that much fuel is enough. -/
def HexString (data : List Nat) : Option (List Char) :=
  HexStringLoop data.length data 0 []

/-! ## The socket -/

/-- One system call on the socket, as recorded in the trace. -/
structure Call where
  /-- Whether the call is `::write` (true) or `::read` (false). -/
  isWrite : Bool
  /-- Bytes requested (the third argument). -/
  req : Nat
  /-- Value returned by the call. -/
  ret : Int
  /-- Bytes moved by the call. -/
  data : List Nat
  deriving DecidableEq, Repr

/-- The state of the process and of its environment. -/
structure Sys where
  /-- For the i-th system call on the socket: the most bytes the socket moves
  in that call; `≤ 0` for a call without progress. -/
  script : Nat → Int
  /-- Bytes sent by the peer and not yet read by the client. -/
  incoming : List Nat
  /-- Bytes accepted from the client so far. -/
  wire : List Nat
  /-- The system calls made on the socket so far, oldest first. -/
  trace : List Call
  /-- What was printed on standard output so far, line by line. -/
  out : List String

/-- Why a run ended early. -/
inductive Fault where
  /-- Line 97, `assert(n > 0)` in `write`. -/
  | assertWrite
  /-- Line 121, `assert(n > 0)` in `read`. -/
  | assertRead
  /-- Line 110, `assert(lengthOfLength <= sizeof length)`. -/
  | assertLengthOfLength
  /-- Line 111, `assert(length < 1U << (lengthOfLength * 8))`. -/
  | assertLength
  /-- Line 155, `assert(version == VERSION)`. -/
  | assertVersion
  /-- A loop that does not come to an end. -/
  | diverge
  deriving DecidableEq, Repr

/-- The value a system call returns when the socket makes no progress
(`k ≤ 0` in the script): 0 for "nothing moved", -1 for an error. -/
def failValue (k : Int) : Int := if k = 0 then 0 else -1

/-- The system call `::write(fd_, src, count)`. -/
def sysWrite (t : Sys) (src : List Nat) (count : Nat) : Sys × Int :=
  let k := t.script t.trace.length
  if k ≤ 0 then
    ({ t with trace := t.trace ++ [⟨true, count, failValue k, []⟩] }, failValue k)
  else
    let m := min k.toNat count
    ({ t with wire := t.wire ++ src.take m,
              trace := t.trace ++ [⟨true, count, (m : Nat), src.take m⟩] },
     (m : Nat))

/-- The system call `::read(fd_, dst, count)`: returns the return value
together with the bytes delivered; at the end of the stream nothing is
delivered and the call returns 0. -/
def sysRead (t : Sys) (count : Nat) : Sys × Int × List Nat :=
  let k := t.script t.trace.length
  if k ≤ 0 then
    ({ t with trace := t.trace ++ [⟨false, count, failValue k, []⟩] }, failValue k, [])
  else
    let m := min (min k.toNat count) t.incoming.length
    ({ t with incoming := t.incoming.drop m,
              trace := t.trace ++ [⟨false, count, (m : Nat), t.incoming.take m⟩] },
     (m : Nat), t.incoming.take m)

/-! ## CTClient (lines 86-163) -/

/-- The constant `VERSION`. -/
def VERSION : Nat := 0

/-- The class `CTResponse`. -/
structure CTResponse where
  code : Nat
  data : List Nat
  deriving DecidableEq, Repr

/-- The loop of `CTClient::write` (lines 95-99). -/
def writeLoop : Nat → Sys → List Nat → Nat → Nat → Sys × Except Fault Unit
  | 0, t, _, length, offset =>
    if offset < length then (t, .error .diverge) else (t, .ok ())
  | fuel + 1, t, buf, length, offset =>
    if offset < length then
      let r := sysWrite t (buf.drop offset) (length - offset)
      let n := toInt32 r.2
      if 0 < n then writeLoop fuel r.1 buf length ((offset + n.toNat) % 18446744073709551616)
      else (r.1, .error .assertWrite)
    else (t, .ok ())

/-- The function `CTClient::write(buf, length)`.  Every iteration that passes
the assertion advances `offset` by at least one, so `length` iterations are
enough. -/
def write (t : Sys) (buf : List Nat) (length : Nat) : Sys × Except Fault Unit :=
  writeLoop length t buf length 0

/-- The function `CTClient::writeByte(b)`: `buf[0] = b` keeps the low 8 bits. -/
def writeByte (t : Sys) (b : Nat) : Sys × Except Fault Unit :=
  write t [b % 256] 1

/-- The loop of `CTClient::writeLength` (lines 112-115); the first argument
is the loop variable `lengthOfLength`. -/
def writeLengthLoop : Nat → Sys → Nat → Sys × Except Fault Unit
  | 0, t, _ => (t, .ok ())
  | k + 1, t, length =>
    let b := length &&& intToSizeT (shl32 0xff (k * 8))
    match writeByte t (b >>> (k * 8)) with
    | (t1, .ok _) => writeLengthLoop k t1 length
    | (t1, .error e) => (t1, .error e)

/-- The function `CTClient::writeLength(length, lengthOfLength)`. -/
def writeLength (t : Sys) (length lengthOfLength : Nat) : Sys × Except Fault Unit :=
  if ¬ lengthOfLength ≤ 8 then (t, .error .assertLengthOfLength)
  else if ¬ length < shl32 1 (lengthOfLength * 8) then (t, .error .assertLength)
  else writeLengthLoop lengthOfLength t length

/-- The loop of `CTClient::read` (lines 119-123); `buf` is the destination
array, the delivered bytes land at `buf + offset`. -/
def readLoop : Nat → Sys → List Nat → Nat → Nat → Sys × Except Fault (List Nat)
  | 0, t, buf, length, offset =>
    if offset < length then (t, .error .diverge) else (t, .ok buf)
  | fuel + 1, t, buf, length, offset =>
    if offset < length then
      let r := sysRead t (length - offset)
      let buf1 := buf.take offset ++ r.2.2 ++ buf.drop (offset + r.2.2.length)
      let n := toInt32 r.2.1
      if 0 < n then readLoop fuel r.1 buf1 length ((offset + n.toNat) % 18446744073709551616)
      else (r.1, .error .assertRead)
    else (t, .ok buf)

/-- The function `CTClient::read(buf, length)`; returns the array as left by
the loop. -/
def read (t : Sys) (buf : List Nat) (length : Nat) : Sys × Except Fault (List Nat) :=
  readLoop length t buf length 0

/-- The function `CTClient::readByte()`; the local array starts out
indeterminate, here as 0. -/
def readByte (t : Sys) : Sys × Except Fault Nat :=
  match read t [0] 1 with
  | (t1, .ok buf) => (t1, .ok (buf.getD 0 0))
  | (t1, .error e) => (t1, .error e)

/-- The function `CTClient::readLength(lengthOfLength)`. -/
def readLength (t : Sys) (lengthOfLength : Nat) : Sys × Except Fault Nat :=
  match read t (List.replicate lengthOfLength 0) lengthOfLength with
  | (t1, .ok buf) =>
    (t1, .ok ((List.range lengthOfLength).foldl
      (fun length n => ((length <<< 8) + buf.getD n 0) % 18446744073709551616) 0))
  | (t1, .error e) => (t1, .error e)

/-- The function `CTClient::readString(dst, length)`; returns the new value of
`*dst`. -/
def readString (t : Sys) (length : Nat) : Sys × Except Fault (List Nat) :=
  match read t (List.replicate length 0) length with
  | (t1, .ok buf) => (t1, .ok (buf.take length))
  | (t1, .error e) => (t1, .error e)

/-- The function `CTClient::writeCommand(cmd, length)`. -/
def writeCommand (t : Sys) (cmd length : Nat) : Sys × Except Fault Unit :=
  match writeByte t VERSION with
  | (t1, .error e) => (t1, .error e)
  | (t1, .ok _) =>
    match writeByte t1 cmd with
    | (t2, .error e) => (t2, .error e)
    | (t2, .ok _) => writeLength t2 length 3

/-- The two output statements at the end of `readResponse` (lines 159-162). -/
def report (SUBMITTED : Nat) (t : Sys) (code length : Nat) (data : List Nat) :
    Sys × Except Fault Unit :=
  let line1 := "Response code is " ++ toString code ++ ", data length " ++ toString length
  if code = SUBMITTED then
    match HexString data with
    | some hex => ({ t with out := t.out ++ [line1, "Token is " ++ String.mk hex] }, .ok ())
    | none => ({ t with out := t.out ++ [line1] }, .error .diverge)
  else ({ t with out := t.out ++ [line1] }, .ok ())

/-- The function `CTClient::readResponse(response)`; returns the response it
filled in. -/
def readResponse (SUBMITTED : Nat) (t : Sys) : Sys × Except Fault CTResponse :=
  match readByte t with
  | (t1, .error e) => (t1, .error e)
  | (t1, .ok version) =>
    if version ≠ VERSION then (t1, .error .assertVersion)
    else
      match readByte t1 with
      | (t2, .error e) => (t2, .error e)
      | (t2, .ok code) =>
        match readLength t2 3 with
        | (t3, .error e) => (t3, .error e)
        | (t3, .ok length) =>
          match readString t3 length with
          | (t4, .error e) => (t4, .error e)
          | (t4, .ok data) =>
            match report SUBMITTED t4 code length data with
            | (t5, .error e) => (t5, .error e)
            | (t5, .ok _) => (t5, .ok ⟨code, data⟩)

/-- The function `CTClient::uploadBundle(bundle)`; returns the response read. -/
def uploadBundle (UPLOAD_BUNDLE SUBMITTED : Nat) (t : Sys) (bundle : List Nat) :
    Sys × Except Fault CTResponse :=
  match writeCommand t UPLOAD_BUNDLE bundle.length with
  | (t1, .error e) => (t1, .error e)
  | (t1, .ok _) =>
    match write t1 bundle bundle.length with
    | (t2, .error e) => (t2, .error e)
    | (t2, .ok _) => readResponse SUBMITTED t2

/-- A socket in its initial state: nothing written, nothing read. -/
def Sys.start (script : Nat → Int) (incoming : List Nat) : Sys :=
  ⟨script, incoming, [], [], []⟩

/-! ## Predicates used in the statements -/

/-- The socket moves at least one byte in every call. -/
def Progress (t : Sys) : Prop := ∀ i, 1 ≤ t.script i

/-- No byte count of a call on the socket is cut by the conversion to `int`. -/
def NoTrunc (t : Sys) (length : Nat) : Prop :=
  length < 2147483648 ∨ ∀ i, t.script i < 2147483648

/-- The fault of a result, if it is one. -/
def faultOf {α : Type} : Except Fault α → Option Fault
  | .ok _ => none
  | .error e => some e

/-- The fault with which the loop ends after the call `c` made no progress. -/
def ioFault (c : Call) : Fault := if c.isWrite then .assertWrite else .assertRead

/-- What a run of system calls `seg` ending with result `f` looks like: every
call but the last made progress, and a last call without progress ends the
run with the assertion of its loop. -/
def Inv (seg : List Call) (f : Option Fault) : Prop :=
  (∀ c ∈ seg.dropLast, 0 < toInt32 c.ret) ∧
  (∀ c, seg.getLast? = some c → toInt32 c.ret ≤ 0 → f = some (ioFault c))

/-- The calls made between two states form a run as described by `Inv`. -/
def TraceInv (t t1 : Sys) (f : Option Fault) : Prop :=
  ∃ seg, t1.trace = t.trace ++ seg ∧ Inv seg f

/-- The bytes the loop of `writeLength` hands to the socket, first to last,
when it starts with `lengthOfLength = k`. -/
def lengthBytes (length : Nat) : Nat → List Nat
  | 0 => []
  | k + 1 => (((length &&& intToSizeT (shl32 0xff (k * 8))) >>> (k * 8)) % 256)
      :: lengthBytes length k

/-- The two characters `HexString` appends for each byte, byte after byte. -/
def hexChars : List Nat → List Char
  | [] => []
  | b :: rest =>
    nibble.getD ((b >>> 4) &&& 0xf) '0' :: nibble.getD (b &&& 0xf) '0' :: hexChars rest

/-- The lowercase hexadecimal digit of a value below 16, by its character
code: `'0'..'9'` are 48..57 and `'a'..'f'` are 97..102. -/
def lowerHexDigit (x : Nat) : Char :=
  if x < 10 then Char.ofNat (48 + x) else Char.ofNat (87 + x)

/-- A socket whose first call accepts all that is offered and whose later
calls accept `2^30` bytes each. -/
def greedyThenChunks : Nat → Int := fun i => if i = 0 then 4294967297 else 1073741824

/-- The bytes moved by a run of system calls, in order. -/
def moved : List Call → List Nat
  | [] => []
  | c :: cs => c.data ++ moved cs

/-- A run of `::write` calls `seg` leads from `t` to `t1`: the calls are
appended to the trace, what they moved is appended to the wire, and nothing
else changes. -/
def WriteRun (t t1 : Sys) (seg : List Call) : Prop :=
  t1 = { t with wire := t.wire ++ moved seg, trace := t.trace ++ seg } ∧
  ∀ c ∈ seg, c.isWrite = true ∧ 1 ≤ c.req

/-- A run of `::read` calls `seg` leads from `t` to `t1`: the calls are
appended to the trace, what they moved is taken from the front of the
incoming stream, and neither the wire nor the script changes. -/
def ReadRun (t t1 : Sys) (seg : List Call) : Prop :=
  t.incoming = moved seg ++ t1.incoming ∧
  t1.trace = t.trace ++ seg ∧ t1.wire = t.wire ∧ t1.script = t.script ∧
  ∀ c ∈ seg, c.isWrite = false ∧ 1 ≤ c.req

/-- The five header bytes of a command frame as `writeCommand(cmd, length)`
hands them to `writeByte`. -/
def headerBytes (cmd length : Nat) : List Nat :=
  [0, cmd % 256, length / 65536 % 256, length / 256 % 256, length % 256]

/-! ## System calls and loops: one step -/

theorem toInt32_small (r : Int) (h0 : 0 ≤ r) (h1 : r < 2147483648) : toInt32 r = r := by
  unfold toInt32; omega

theorem toInt32_failValue (k : Int) : toInt32 (failValue k) ≤ 0 := by
  unfold failValue; split <;> decide

theorem sysWrite_fail (t : Sys) (src : List Nat) (count : Nat)
    (h : t.script t.trace.length ≤ 0) :
    sysWrite t src count =
      ({ t with trace := t.trace ++ [⟨true, count, failValue (t.script t.trace.length), []⟩] },
        failValue (t.script t.trace.length)) := by
  simp [sysWrite, h]

theorem sysWrite_move (t : Sys) (src : List Nat) (count : Nat)
    (h : 0 < t.script t.trace.length) :
    sysWrite t src count =
      ({ t with wire := t.wire ++ src.take (min (t.script t.trace.length).toNat count),
                trace := t.trace ++ [⟨true, count,
                  ((min (t.script t.trace.length).toNat count : Nat) : Int),
                  src.take (min (t.script t.trace.length).toNat count)⟩] },
        ((min (t.script t.trace.length).toNat count : Nat) : Int)) := by
  simp [sysWrite, not_le.mpr h]

theorem sysRead_fail (t : Sys) (count : Nat) (h : t.script t.trace.length ≤ 0) :
    sysRead t count =
      ({ t with trace := t.trace ++ [⟨false, count, failValue (t.script t.trace.length), []⟩] },
        failValue (t.script t.trace.length), []) := by
  simp [sysRead, h]

theorem sysRead_move (t : Sys) (count : Nat) (h : 0 < t.script t.trace.length) :
    sysRead t count =
      ({ t with incoming := t.incoming.drop
                  (min (min (t.script t.trace.length).toNat count) t.incoming.length),
                trace := t.trace ++ [⟨false, count,
                  ((min (min (t.script t.trace.length).toNat count) t.incoming.length : Nat) : Int),
                  t.incoming.take
                    (min (min (t.script t.trace.length).toNat count) t.incoming.length)⟩] },
        ((min (min (t.script t.trace.length).toNat count) t.incoming.length : Nat) : Int),
        t.incoming.take (min (min (t.script t.trace.length).toNat count) t.incoming.length)) := by
  simp [sysRead, not_le.mpr h]

theorem writeLoop_succ (fuel : Nat) (t : Sys) (buf : List Nat) (length offset : Nat)
    (h : offset < length) :
    writeLoop (fuel + 1) t buf length offset =
      if 0 < toInt32 (sysWrite t (buf.drop offset) (length - offset)).2 then
        writeLoop fuel (sysWrite t (buf.drop offset) (length - offset)).1 buf length
          ((offset + (toInt32 (sysWrite t (buf.drop offset) (length - offset)).2).toNat)
            % 18446744073709551616)
      else ((sysWrite t (buf.drop offset) (length - offset)).1, .error .assertWrite) := by
  simp [writeLoop, h]

theorem writeLoop_done (fuel : Nat) (t : Sys) (buf : List Nat) (length offset : Nat)
    (h : length ≤ offset) : writeLoop fuel t buf length offset = (t, .ok ()) := by
  cases fuel <;> simp [writeLoop, not_lt.mpr h]

theorem writeByte_fail (t : Sys) (b : Nat) (h : t.script t.trace.length ≤ 0) :
    writeByte t b =
      ({ t with trace := t.trace ++ [⟨true, 1, failValue (t.script t.trace.length), []⟩] },
        .error .assertWrite) := by
  have hf := toInt32_failValue (t.script t.trace.length)
  simp [writeByte, write, writeLoop_succ, sysWrite_fail, h, not_lt.mpr hf]

theorem writeByte_move (t : Sys) (b : Nat) (h : 0 < t.script t.trace.length) :
    writeByte t b =
      ({ t with wire := t.wire ++ [b % 256],
                trace := t.trace ++ [⟨true, 1, 1, [b % 256]⟩] }, .ok ()) := by
  have hm : min (t.script t.trace.length).toNat 1 = 1 := by omega
  simp [writeByte, write, writeLoop_succ, sysWrite_move, h, hm, toInt32_small, writeLoop_done]

theorem slice_split (buf : List Nat) (offset m L : Nat) (hm : m ≤ L - offset) :
    (buf.drop offset).take m ++ (buf.drop (offset + m)).take (L - (offset + m))
      = (buf.drop offset).take (L - offset) := by
  have h : L - offset = m + (L - (offset + m)) := by omega
  rw [h, List.take_add, List.drop_drop]

theorem writeLoop_ok_state (buf : List Nat) (length : Nat) (h64 : length < 18446744073709551616) :
    ∀ (fuel : Nat) (t : Sys) (offset : Nat), offset ≤ length → NoTrunc t length →
      (writeLoop fuel t buf length offset).2 = .ok () →
      ∃ tr, writeLoop fuel t buf length offset
        = ({ t with wire := t.wire ++ (buf.drop offset).take (length - offset), trace := tr },
            .ok ()) := by
  intro fuel
  induction fuel with
  | zero =>
    intro t offset ho hnt hok
    by_cases hlt : offset < length
    · simp [writeLoop, hlt] at hok
    · have h0 : length - offset = 0 := by omega
      exact ⟨t.trace, by simp [writeLoop, hlt, h0]⟩
  | succ fuel ih =>
    intro t offset ho hnt hok
    by_cases hlt : offset < length
    · rw [writeLoop_succ _ _ _ _ _ hlt] at hok ⊢
      rcases le_or_lt (t.script t.trace.length) 0 with hk | hk
      · have hf := toInt32_failValue (t.script t.trace.length)
        simp [sysWrite_fail, hk, not_lt.mpr hf] at hok
      · rw [sysWrite_move _ _ _ hk] at hok ⊢
        simp only [] at hok ⊢
        have hm1 : 1 ≤ min (t.script t.trace.length).toNat (length - offset) := by omega
        have hm2 : min (t.script t.trace.length).toNat (length - offset) < 2147483648 := by
          rcases hnt with h | h
          · omega
          · have := h t.trace.length; omega
        have hm3 := Nat.min_le_right (t.script t.trace.length).toNat (length - offset)
        generalize min (t.script t.trace.length).toNat (length - offset) = m at *
        have hn : toInt32 (m : Int) = m := toInt32_small _ (by omega) (by omega)
        have hpos : (0 : Int) < m := by omega
        have hoff : (offset + m) % 18446744073709551616 = offset + m :=
          Nat.mod_eq_of_lt (by omega)
        simp only [hn, hpos, if_true, Int.toNat_ofNat, hoff] at hok ⊢
        obtain ⟨tr, htr⟩ := ih _ (offset + m) (by omega) (by exact hnt) hok
        refine ⟨tr, ?_⟩
        rw [htr]
        simp only [List.append_assoc, slice_split buf offset m length (by omega)]
    · have h0 : length - offset = 0 := by omega
      exact ⟨t.trace, by simp [writeLoop_done _ _ _ _ _ (not_lt.mp hlt), h0]⟩

theorem writeLoop_progress (buf : List Nat) (length : Nat) (h64 : length < 18446744073709551616) :
    ∀ (fuel : Nat) (t : Sys) (offset : Nat), offset ≤ length → length - offset ≤ fuel →
      Progress t → NoTrunc t length →
      (writeLoop fuel t buf length offset).2 = .ok () := by
  intro fuel
  induction fuel with
  | zero =>
    intro t offset ho hf hp hnt
    simp [writeLoop_done _ _ _ _ _ (show length ≤ offset by omega)]
  | succ fuel ih =>
    intro t offset ho hf hp hnt
    by_cases hlt : offset < length
    · rw [writeLoop_succ _ _ _ _ _ hlt]
      have hk : 0 < t.script t.trace.length := by have := hp t.trace.length; omega
      rw [sysWrite_move _ _ _ hk]
      simp only []
      have hm1 : 1 ≤ min (t.script t.trace.length).toNat (length - offset) := by omega
      have hm2 : min (t.script t.trace.length).toNat (length - offset) < 2147483648 := by
        rcases hnt with h | h
        · omega
        · have := h t.trace.length; omega
      have hm3 := Nat.min_le_right (t.script t.trace.length).toNat (length - offset)
      generalize min (t.script t.trace.length).toNat (length - offset) = m at *
      have hn : toInt32 (m : Int) = m := toInt32_small _ (by omega) (by omega)
      have hpos : (0 : Int) < m := by omega
      have hoff : (offset + m) % 18446744073709551616 = offset + m :=
        Nat.mod_eq_of_lt (by omega)
      simp only [hn, hpos, if_true, Int.toNat_ofNat, hoff]
      exact ih _ (offset + m) (by omega) (by omega) (by exact hp) (by exact hnt)
    · simp [writeLoop_done _ _ _ _ _ (not_lt.mp hlt)]

theorem readLoop_succ (fuel : Nat) (t : Sys) (buf : List Nat) (length offset : Nat)
    (h : offset < length) :
    readLoop (fuel + 1) t buf length offset =
      if 0 < toInt32 (sysRead t (length - offset)).2.1 then
        readLoop fuel (sysRead t (length - offset)).1
          (buf.take offset ++ (sysRead t (length - offset)).2.2
            ++ buf.drop (offset + (sysRead t (length - offset)).2.2.length))
          length
          ((offset + (toInt32 (sysRead t (length - offset)).2.1).toNat) % 18446744073709551616)
      else ((sysRead t (length - offset)).1, .error .assertRead) := by
  simp [readLoop, h]

theorem readLoop_done (fuel : Nat) (t : Sys) (buf : List Nat) (length offset : Nat)
    (h : length ≤ offset) : readLoop fuel t buf length offset = (t, .ok buf) := by
  cases fuel <;> simp [readLoop, not_lt.mpr h]

theorem readLoop_spec (length : Nat) (h64 : length < 18446744073709551616) :
    ∀ (fuel : Nat) (t : Sys) (buf : List Nat) (offset : Nat), buf.length = length →
      offset ≤ length → length - offset ≤ fuel → length - offset ≤ t.incoming.length →
      Progress t → NoTrunc t length →
      ∃ tr, readLoop fuel t buf length offset
        = ({ t with incoming := t.incoming.drop (length - offset), trace := tr },
            .ok (buf.take offset ++ t.incoming.take (length - offset))) := by
  intro fuel
  induction fuel with
  | zero =>
    intro t buf offset hb ho hf hin hp hnt
    have h0 : length - offset = 0 := by omega
    have hbo : buf.length ≤ offset := by omega
    exact ⟨t.trace, by
      simp [readLoop_done _ _ _ _ _ (show length ≤ offset by omega), h0,
        List.take_of_length_le hbo]⟩
  | succ fuel ih =>
    intro t buf offset hb ho hf hin hp hnt
    by_cases hlt : offset < length
    · rw [readLoop_succ _ _ _ _ _ hlt]
      have hk : 0 < t.script t.trace.length := by have := hp t.trace.length; omega
      rw [sysRead_move _ _ hk]
      simp only []
      have hm1 : 1 ≤ min (min (t.script t.trace.length).toNat (length - offset))
          t.incoming.length := by omega
      have hm2 : min (min (t.script t.trace.length).toNat (length - offset))
          t.incoming.length < 2147483648 := by
        rcases hnt with h | h
        · omega
        · have := h t.trace.length; omega
      have hm3 : min (min (t.script t.trace.length).toNat (length - offset))
          t.incoming.length ≤ length - offset := by omega
      have hm4 := Nat.min_le_right (min (t.script t.trace.length).toNat (length - offset))
        t.incoming.length
      generalize min (min (t.script t.trace.length).toNat (length - offset))
          t.incoming.length = m at *
      have hn : toInt32 (m : Int) = m := toInt32_small _ (by omega) (by omega)
      have hpos : (0 : Int) < m := by omega
      have hoff : (offset + m) % 18446744073709551616 = offset + m :=
        Nat.mod_eq_of_lt (by omega)
      have hlen : (t.incoming.take m).length = m := by
        rw [List.length_take]; omega
      simp only [hn, hpos, if_true, Int.toNat_ofNat, hoff, hlen]
      obtain ⟨tr, htr⟩ := ih
        { t with incoming := t.incoming.drop m,
                 trace := t.trace ++ [⟨false, length - offset, (m : Nat), t.incoming.take m⟩] }
        (buf.take offset ++ t.incoming.take m ++ buf.drop (offset + m)) (offset + m)
        (by simp [List.length_append, List.length_take, List.length_drop]; omega)
        (by omega) (by omega) (by simp [List.length_drop]; omega) (by exact hp) (by exact hnt)
      refine ⟨tr, ?_⟩
      rw [htr]
      have h1 : (buf.take offset ++ t.incoming.take m ++ buf.drop (offset + m)).take (offset + m)
          = buf.take offset ++ t.incoming.take m := by
        rw [List.take_append_of_le_length (by simp [List.length_take]; omega)]
        rw [List.take_of_length_le (by simp [List.length_take]; omega)]
      have h2 : t.incoming.take m ++ (t.incoming.drop m).take (length - (offset + m))
          = t.incoming.take (length - offset) := by
        have h : length - offset = m + (length - (offset + m)) := by omega
        rw [h, List.take_add]
      have h3 : (t.incoming.drop m).drop (length - (offset + m))
          = t.incoming.drop (length - offset) := by
        rw [List.drop_drop, show m + (length - (offset + m)) = length - offset by omega]
      dsimp only
      rw [h1, h3, List.append_assoc, h2]
    · have h0 : length - offset = 0 := by omega
      have hbo : buf.length ≤ offset := by omega
      exact ⟨t.trace, by
        simp [readLoop_done _ _ _ _ _ (not_lt.mp hlt), h0, List.take_of_length_le hbo]⟩

theorem writeLoop_spec (buf : List Nat) (length : Nat) (h64 : length < 18446744073709551616)
    (fuel : Nat) (t : Sys) (offset : Nat) (ho : offset ≤ length) (hf : length - offset ≤ fuel)
    (hp : Progress t) (hnt : NoTrunc t length) :
    ∃ tr, writeLoop fuel t buf length offset
      = ({ t with wire := t.wire ++ (buf.drop offset).take (length - offset), trace := tr },
          .ok ()) :=
  writeLoop_ok_state buf length h64 fuel t offset ho hnt
    (writeLoop_progress buf length h64 fuel t offset ho hf hp hnt)

theorem Inv_nil (f : Option Fault) : Inv [] f := by
  constructor
  · intro c hc; simp at hc
  · intro c hc; simp at hc

theorem Inv_single_pos (c : Call) (h : 0 < toInt32 c.ret) (f : Option Fault) : Inv [c] f := by
  constructor
  · intro c hc; simp at hc
  · intro c1 hc hle
    simp at hc; subst hc; omega

theorem Inv_single_fail (c : Call) : Inv [c] (some (ioFault c)) := by
  constructor
  · intro c hc; simp at hc
  · intro c1 hc _
    simp at hc; subst hc; rfl

theorem Inv_allPos (seg : List Call) (f : Option Fault)
    (hf : f ≠ some .assertWrite ∧ f ≠ some .assertRead) (h : Inv seg f) :
    ∀ c ∈ seg, 0 < toInt32 c.ret := by
  intro c hc
  rcases List.eq_nil_or_concat seg with h0 | ⟨pre, l, h1⟩
  · subst h0; simp at hc
  · rw [List.concat_eq_append] at h1
    subst h1
    have hd : (pre ++ [l]).dropLast = pre := by simp
    have hl : (pre ++ [l]).getLast? = some l := by simp
    rcases List.mem_append.mp hc with hc | hc
    · exact h.1 c (by rw [hd]; exact hc)
    · simp at hc; subst hc
      by_contra hneg
      have := h.2 c hl (by omega)
      unfold ioFault at this
      split at this
      · exact hf.1 this
      · exact hf.2 this

theorem Inv_append (s1 s2 : List Call) (f : Option Fault)
    (h1 : ∀ c ∈ s1, 0 < toInt32 c.ret) (h2 : Inv s2 f) : Inv (s1 ++ s2) f := by
  rcases List.eq_nil_or_concat s2 with h0 | ⟨pre, l, hl⟩
  · subst h0
    simp only [List.append_nil]
    constructor
    · intro c hc; exact h1 c (List.mem_of_mem_dropLast hc)
    · intro c hc hle
      have := h1 c (List.mem_of_getLast?_eq_some hc)
      omega
  · rw [List.concat_eq_append] at hl
    subst hl
    have hd : (pre ++ [l]).dropLast = pre := by simp
    have hd2 : (s1 ++ (pre ++ [l])).dropLast = s1 ++ pre := by
      rw [← List.append_assoc]; simp
    have hl2 : (s1 ++ (pre ++ [l])).getLast? = some l := by
      rw [← List.append_assoc]; simp
    constructor
    · intro c hc
      rw [hd2] at hc
      rcases List.mem_append.mp hc with hc | hc
      · exact h1 c hc
      · exact h2.1 c (by rw [hd]; exact hc)
    · intro c hc hle
      rw [hl2] at hc
      exact h2.2 c (by simpa using hc) hle

theorem TraceInv_refl (t : Sys) (f : Option Fault) : TraceInv t t f :=
  ⟨[], by simp, Inv_nil f⟩

theorem TraceInv_trans {t t1 t2 : Sys} {f : Option Fault}
    (h1 : TraceInv t t1 none) (h2 : TraceInv t1 t2 f) : TraceInv t t2 f := by
  obtain ⟨s1, e1, i1⟩ := h1
  obtain ⟨s2, e2, i2⟩ := h2
  refine ⟨s1 ++ s2, by rw [e2, e1, List.append_assoc], ?_⟩
  exact Inv_append s1 s2 f (Inv_allPos s1 none (by simp) i1) i2

theorem TraceInv_step_pos {t t1 t2 : Sys} {f : Option Fault} (c : Call)
    (hc : 0 < toInt32 c.ret) (h1 : t1.trace = t.trace ++ [c]) (h2 : TraceInv t1 t2 f) :
    TraceInv t t2 f :=
  TraceInv_trans ⟨[c], h1, Inv_single_pos c hc none⟩ h2

theorem writeLoop_trace (buf : List Nat) (length : Nat) :
    ∀ (fuel : Nat) (t : Sys) (offset : Nat),
      TraceInv t (writeLoop fuel t buf length offset).1
        (faultOf (writeLoop fuel t buf length offset).2) := by
  intro fuel
  induction fuel with
  | zero =>
    intro t offset
    by_cases hlt : offset < length
    · simp only [writeLoop, hlt, if_true]; exact TraceInv_refl _ _
    · simp only [writeLoop, hlt, if_false]; exact TraceInv_refl _ _
  | succ fuel ih =>
    intro t offset
    by_cases hlt : offset < length
    · rw [writeLoop_succ _ _ _ _ _ hlt]
      have hstep : ∃ c, (sysWrite t (buf.drop offset) (length - offset)).1.trace = t.trace ++ [c]
          ∧ c.ret = (sysWrite t (buf.drop offset) (length - offset)).2 ∧ c.isWrite = true := by
        rcases le_or_lt (t.script t.trace.length) 0 with hk | hk
        · rw [sysWrite_fail _ _ _ hk]; exact ⟨_, rfl, rfl, rfl⟩
        · rw [sysWrite_move _ _ _ hk]; exact ⟨_, rfl, rfl, rfl⟩
      obtain ⟨c, hc1, hc2, hc3⟩ := hstep
      split
      · rename_i hpos
        exact TraceInv_step_pos c (by rw [hc2]; exact hpos) hc1 (ih _ _)
      · rename_i hneg
        refine ⟨[c], hc1, ?_⟩
        have : faultOf (Except.error Fault.assertWrite : Except Fault Unit) = some (ioFault c) := by
          simp [faultOf, ioFault, hc3]
        rw [this]; exact Inv_single_fail c
    · rw [writeLoop_done _ _ _ _ _ (not_lt.mp hlt)]; exact TraceInv_refl _ _

theorem readLoop_trace (length : Nat) :
    ∀ (fuel : Nat) (t : Sys) (buf : List Nat) (offset : Nat),
      TraceInv t (readLoop fuel t buf length offset).1
        (faultOf (readLoop fuel t buf length offset).2) := by
  intro fuel
  induction fuel with
  | zero =>
    intro t buf offset
    by_cases hlt : offset < length
    · simp only [readLoop, hlt, if_true]; exact TraceInv_refl _ _
    · simp only [readLoop, hlt, if_false]; exact TraceInv_refl _ _
  | succ fuel ih =>
    intro t buf offset
    by_cases hlt : offset < length
    · rw [readLoop_succ _ _ _ _ _ hlt]
      have hstep : ∃ c, (sysRead t (length - offset)).1.trace = t.trace ++ [c]
          ∧ c.ret = (sysRead t (length - offset)).2.1 ∧ c.isWrite = false := by
        rcases le_or_lt (t.script t.trace.length) 0 with hk | hk
        · rw [sysRead_fail _ _ hk]; exact ⟨_, rfl, rfl, rfl⟩
        · rw [sysRead_move _ _ hk]; exact ⟨_, rfl, rfl, rfl⟩
      obtain ⟨c, hc1, hc2, hc3⟩ := hstep
      split
      · rename_i hpos
        exact TraceInv_step_pos c (by rw [hc2]; exact hpos) hc1 (ih _ _ _)
      · rename_i hneg
        refine ⟨[c], hc1, ?_⟩
        have : faultOf (Except.error Fault.assertRead : Except Fault (List Nat))
            = some (ioFault c) := by
          simp [faultOf, ioFault, hc3]
        rw [this]; exact Inv_single_fail c
    · rw [readLoop_done _ _ _ _ _ (not_lt.mp hlt)]; exact TraceInv_refl _ _

/-! ## The write side and C1 -/

theorem and_mask_shift (n s : Nat) :
    ((n &&& (255 * 2 ^ s)) >>> s) % 256 = (n / 2 ^ s) % 256 := by
  rw [← Nat.shiftLeft_eq, ← Nat.shiftRight_eq_div_pow]
  apply Nat.eq_of_testBit_eq
  intro i
  have h256 : (256 : Nat) = 2 ^ 8 := by norm_num
  have h255 : (255 : Nat) = 2 ^ 8 - 1 := by norm_num
  rw [h256, Nat.testBit_mod_two_pow, Nat.testBit_mod_two_pow, Nat.testBit_shiftRight,
    Nat.testBit_shiftRight, Nat.testBit_and, Nat.testBit_shiftLeft, h255,
    Nat.testBit_two_pow_sub_one]
  by_cases hi : i < 8 <;> simp [hi]

theorem writeByte_ok_state (t : Sys) (b : Nat) (h : (writeByte t b).2 = .ok ()) :
    writeByte t b = ({ t with wire := t.wire ++ [b % 256],
                              trace := t.trace ++ [⟨true, 1, 1, [b % 256]⟩] }, .ok ()) := by
  rcases le_or_lt (t.script t.trace.length) 0 with hk | hk
  · rw [writeByte_fail _ _ hk] at h; simp at h
  · exact writeByte_move _ _ hk

theorem writeByte_progress (t : Sys) (b : Nat) (hp : Progress t) :
    writeByte t b = ({ t with wire := t.wire ++ [b % 256],
                              trace := t.trace ++ [⟨true, 1, 1, [b % 256]⟩] }, .ok ()) :=
  writeByte_move _ _ (by have := hp t.trace.length; omega)

theorem writeLengthLoop_ok_state (length : Nat) :
    ∀ (k : Nat) (t : Sys), (writeLengthLoop k t length).2 = .ok () →
      ∃ tr, writeLengthLoop k t length =
        ({ t with wire := t.wire ++ lengthBytes length k, trace := tr }, .ok ()) := by
  intro k
  induction k with
  | zero => intro t _; exact ⟨t.trace, by simp [writeLengthLoop, lengthBytes]⟩
  | succ k ih =>
    intro t h
    simp only [writeLengthLoop] at h ⊢
    rcases le_or_lt (t.script t.trace.length) 0 with hk | hk
    · rw [writeByte_fail _ _ hk] at h; simp at h
    · rw [writeByte_move _ _ hk] at h ⊢
      simp only [] at h ⊢
      obtain ⟨tr, htr⟩ := ih _ h
      exact ⟨tr, by rw [htr]; simp [lengthBytes]⟩

theorem writeLengthLoop_progress (length : Nat) :
    ∀ (k : Nat) (t : Sys), Progress t → (writeLengthLoop k t length).2 = .ok () := by
  intro k
  induction k with
  | zero => intro t _; simp [writeLengthLoop]
  | succ k ih =>
    intro t hp
    simp only [writeLengthLoop]
    rw [writeByte_progress _ _ hp]
    exact ih _ (by exact hp)

theorem lengthBytes_three (length : Nat) :
    lengthBytes length 3 = [length / 65536 % 256, length / 256 % 256, length % 256] := by
  have e2 : ((length &&& 16711680) >>> 16) % 256 = length / 65536 % 256 := by
    simpa using and_mask_shift length 16
  have e1 : ((length &&& 65280) >>> 8) % 256 = length / 256 % 256 := by
    simpa using and_mask_shift length 8
  have e0 : (length &&& 255) % 256 = length % 256 := by
    simpa using and_mask_shift length 0
  have hs2 : intToSizeT (shl32 255 16) = 16711680 := by decide
  have hs1 : intToSizeT (shl32 255 8) = 65280 := by decide
  have hs0 : intToSizeT (shl32 255 0) = 255 := by decide
  simp only [lengthBytes, hs2, hs1, hs0, Nat.reduceMul, Nat.zero_mul, Nat.shiftRight_zero,
    e2, e1, e0]

theorem writeLength_three_ok_state (t : Sys) (length : Nat)
    (h : (writeLength t length 3).2 = .ok ()) :
    length < 16777216 ∧ ∃ tr, writeLength t length 3 =
      ({ t with wire := t.wire ++ [length / 65536 % 256, length / 256 % 256, length % 256],
                trace := tr }, .ok ()) := by
  have hs : shl32 1 (3 * 8) = 16777216 := by decide
  by_cases hl : length < 16777216
  · simp only [writeLength, hs, hl, not_true_eq_false, if_false, Nat.reduceLeDiff] at h ⊢
    obtain ⟨tr, htr⟩ := writeLengthLoop_ok_state length 3 t h
    exact ⟨trivial, tr, by rw [htr, lengthBytes_three]⟩
  · simp [writeLength, hs, hl] at h

theorem writeLength_three_progress (t : Sys) (length : Nat) (hp : Progress t)
    (hl : length < 16777216) : (writeLength t length 3).2 = .ok () := by
  have hs : shl32 1 (3 * 8) = 16777216 := by decide
  simp only [writeLength, hs, hl, not_true_eq_false, if_false, Nat.reduceLeDiff]
  exact writeLengthLoop_progress length 3 t hp

theorem writeCommand_ok_state (t : Sys) (cmd length : Nat)
    (h : (writeCommand t cmd length).2 = .ok ()) :
    length < 16777216 ∧ ∃ tr, writeCommand t cmd length =
      ({ t with wire := t.wire ++
                  [0, cmd % 256, length / 65536 % 256, length / 256 % 256, length % 256],
                trace := tr }, .ok ()) := by
  simp only [writeCommand] at h ⊢
  rcases le_or_lt (t.script t.trace.length) 0 with hk | hk
  · rw [writeByte_fail _ _ hk] at h; simp at h
  · rw [writeByte_move _ _ hk] at h ⊢
    simp only [] at h ⊢
    generalize hta : Sys.mk t.script t.incoming (t.wire ++ [VERSION % 256])
      (t.trace ++ [⟨true, 1, 1, [VERSION % 256]⟩]) t.out = ta at h ⊢
    rcases le_or_lt (ta.script ta.trace.length) 0 with hk2 | hk2
    · rw [writeByte_fail _ _ hk2] at h; simp at h
    · rw [writeByte_move _ _ hk2] at h ⊢
      simp only [] at h ⊢
      obtain ⟨hl, tr, htr⟩ := writeLength_three_ok_state _ _ h
      refine ⟨hl, tr, ?_⟩
      rw [htr, ← hta]
      simp [VERSION]

theorem writeCommand_progress (t : Sys) (cmd length : Nat) (hp : Progress t)
    (hl : length < 16777216) : (writeCommand t cmd length).2 = .ok () := by
  simp only [writeCommand]
  rw [writeByte_progress _ _ hp]
  simp only []
  rw [writeByte_progress _ _ (by exact hp)]
  exact writeLength_three_progress _ _ (by exact hp) hl

theorem readLoop_frame (length : Nat) :
    ∀ (fuel : Nat) (t : Sys) (buf : List Nat) (offset : Nat),
      (readLoop fuel t buf length offset).1.wire = t.wire ∧
      (readLoop fuel t buf length offset).1.script = t.script ∧
      (readLoop fuel t buf length offset).1.out = t.out := by
  intro fuel
  induction fuel with
  | zero =>
    intro t buf offset
    by_cases hlt : offset < length <;> simp [readLoop, hlt]
  | succ fuel ih =>
    intro t buf offset
    by_cases hlt : offset < length
    · rw [readLoop_succ _ _ _ _ _ hlt]
      have hstep : (sysRead t (length - offset)).1.wire = t.wire ∧
          (sysRead t (length - offset)).1.script = t.script ∧
          (sysRead t (length - offset)).1.out = t.out := by
        rcases le_or_lt (t.script t.trace.length) 0 with hk | hk
        · rw [sysRead_fail _ _ hk]; exact ⟨rfl, rfl, rfl⟩
        · rw [sysRead_move _ _ hk]; exact ⟨rfl, rfl, rfl⟩
      split
      · obtain ⟨h1, h2, h3⟩ := ih (sysRead t (length - offset)).1
          (buf.take offset ++ (sysRead t (length - offset)).2.2
            ++ buf.drop (offset + (sysRead t (length - offset)).2.2.length))
          ((offset + (toInt32 (sysRead t (length - offset)).2.1).toNat) % 18446744073709551616)
        exact ⟨h1.trans hstep.1, h2.trans hstep.2.1, h3.trans hstep.2.2⟩
      · exact hstep
    · rw [readLoop_done _ _ _ _ _ (not_lt.mp hlt)]; exact ⟨rfl, rfl, rfl⟩

theorem writeLoop_frame (buf : List Nat) (length : Nat) :
    ∀ (fuel : Nat) (t : Sys) (offset : Nat),
      (writeLoop fuel t buf length offset).1.incoming = t.incoming ∧
      (writeLoop fuel t buf length offset).1.script = t.script ∧
      (writeLoop fuel t buf length offset).1.out = t.out := by
  intro fuel
  induction fuel with
  | zero =>
    intro t offset
    by_cases hlt : offset < length <;> simp [writeLoop, hlt]
  | succ fuel ih =>
    intro t offset
    by_cases hlt : offset < length
    · rw [writeLoop_succ _ _ _ _ _ hlt]
      have hstep : (sysWrite t (buf.drop offset) (length - offset)).1.incoming = t.incoming ∧
          (sysWrite t (buf.drop offset) (length - offset)).1.script = t.script ∧
          (sysWrite t (buf.drop offset) (length - offset)).1.out = t.out := by
        rcases le_or_lt (t.script t.trace.length) 0 with hk | hk
        · rw [sysWrite_fail _ _ _ hk]; exact ⟨rfl, rfl, rfl⟩
        · rw [sysWrite_move _ _ _ hk]; exact ⟨rfl, rfl, rfl⟩
      split
      · obtain ⟨h1, h2, h3⟩ := ih (sysWrite t (buf.drop offset) (length - offset)).1
          ((offset + (toInt32 (sysWrite t (buf.drop offset) (length - offset)).2).toNat)
            % 18446744073709551616)
        exact ⟨h1.trans hstep.1, h2.trans hstep.2.1, h3.trans hstep.2.2⟩
      · exact hstep
    · rw [writeLoop_done _ _ _ _ _ (not_lt.mp hlt)]; exact ⟨rfl, rfl, rfl⟩

theorem readByte_wire (t : Sys) : (readByte t).1.wire = t.wire := by
  have h := (readLoop_frame 1 1 t [0] 0).1
  unfold readByte read
  split <;> rename_i heq <;> rw [heq] at h <;> exact h

theorem readLength_wire (t : Sys) (k : Nat) : (readLength t k).1.wire = t.wire := by
  have h := (readLoop_frame k k t (List.replicate k 0) 0).1
  unfold readLength read
  split <;> rename_i heq <;> rw [heq] at h <;> exact h

theorem readString_wire (t : Sys) (k : Nat) : (readString t k).1.wire = t.wire := by
  have h := (readLoop_frame k k t (List.replicate k 0) 0).1
  unfold readString read
  split <;> rename_i heq <;> rw [heq] at h <;> exact h

theorem report_wire (S : Nat) (t : Sys) (code length : Nat) (data : List Nat) :
    (report S t code length data).1.wire = t.wire := by
  unfold report
  simp only []
  split
  · split <;> rfl
  · rfl

theorem readResponse_wire (S : Nat) (t : Sys) : (readResponse S t).1.wire = t.wire := by
  unfold readResponse
  have h1 := readByte_wire t
  rcases hr1 : readByte t with ⟨t1, e | version⟩ <;> rw [hr1] at h1 <;> simp only [] at h1 ⊢
  · exact h1
  split
  · exact h1
  have h2 := readByte_wire t1
  rcases hr2 : readByte t1 with ⟨t2, e | code⟩ <;> rw [hr2] at h2 <;> simp only [] at h2 ⊢
  · exact h2.trans h1
  have h3 := readLength_wire t2 3
  rcases hr3 : readLength t2 3 with ⟨t3, e | length⟩ <;> rw [hr3] at h3 <;>
    simp only [] at h3 ⊢
  · exact h3.trans (h2.trans h1)
  have h4 := readString_wire t3 length
  rcases hr4 : readString t3 length with ⟨t4, e | data⟩ <;> rw [hr4] at h4 <;>
    simp only [] at h4 ⊢
  · exact h4.trans (h3.trans (h2.trans h1))
  have h5 := report_wire S t4 code length data
  rcases hr5 : report S t4 code length data with ⟨t5, e | u⟩ <;> rw [hr5] at h5 <;>
    simp only [] at h5 ⊢
  · exact h5.trans (h4.trans (h3.trans (h2.trans h1)))
  · exact h5.trans (h4.trans (h3.trans (h2.trans h1)))

theorem write_ok_state (t : Sys) (buf : List Nat) (length : Nat)
    (h64 : length < 18446744073709551616) (hnt : NoTrunc t length)
    (h : (write t buf length).2 = .ok ()) :
    ∃ tr, write t buf length = ({ t with wire := t.wire ++ buf.take length, trace := tr }, .ok ()) := by
  have := writeLoop_ok_state buf length h64 length t 0 (Nat.zero_le _) hnt h
  simpa [write] using this

/-- C1: a successful `uploadBundle(p)` with `len(p) < 2^24` has put on the
wire exactly the five header bytes `0, UPLOAD_BUNDLE, len(p)` (3 bytes, most
significant first) followed by the bytes of `p`: `5 + len(p)` bytes and
nothing else, whatever the socket did. -/
theorem uploadBundle_writes_frame (UPLOAD_BUNDLE SUBMITTED : Nat) (t : Sys) (p : List Nat)
    (r : CTResponse) (hcmd : UPLOAD_BUNDLE < 256) (hlen : p.length < 16777216)
    (hok : (uploadBundle UPLOAD_BUNDLE SUBMITTED t p).2 = .ok r) :
    (uploadBundle UPLOAD_BUNDLE SUBMITTED t p).1.wire =
      t.wire ++ ([0, UPLOAD_BUNDLE, p.length / 65536 % 256, p.length / 256 % 256,
        p.length % 256] ++ p) ∧
    (uploadBundle UPLOAD_BUNDLE SUBMITTED t p).1.wire.length = t.wire.length + (5 + p.length) := by
  have key : (uploadBundle UPLOAD_BUNDLE SUBMITTED t p).1.wire =
      t.wire ++ ([0, UPLOAD_BUNDLE, p.length / 65536 % 256, p.length / 256 % 256,
        p.length % 256] ++ p) := by
    unfold uploadBundle at hok ⊢
    have h1 := writeCommand_ok_state t UPLOAD_BUNDLE p.length
    rcases hw1 : writeCommand t UPLOAD_BUNDLE p.length with ⟨t1, e | u⟩ <;>
      rw [hw1] at h1 hok <;> simp only [] at h1 hok ⊢
    · simp at hok
    obtain ⟨_, tr1, h1⟩ := h1 trivial
    have ht1 := (Prod.mk.inj h1).1
    have h2 := write_ok_state t1 p p.length (by omega) (Or.inl (by omega))
    rcases hw2 : write t1 p p.length with ⟨t2, e | u⟩ <;>
      rw [hw2] at h2 hok <;> simp only [] at h2 hok ⊢
    · simp at hok
    obtain ⟨tr2, h2⟩ := h2 trivial
    have ht2 := (Prod.mk.inj h2).1
    rw [readResponse_wire, ht2, ht1]
    simp [Nat.mod_eq_of_lt hcmd]
  refine ⟨key, ?_⟩
  rw [key]; simp only [List.length_append, List.length_cons, List.length_nil]

/-- Witness for C1: the exchange of the spec's scenario (payload "hello",
reply SUBMITTED with four bytes), over a socket that moves one byte per call. -/
theorem uploadBundle_writes_frame_witness :
    (uploadBundle 1 2 (Sys.start (fun _ => 1) [0, 2, 0, 0, 4, 1, 2, 3, 4])
        [104, 101, 108, 108, 111]).1.wire
      = [0, 1, 0, 0, 5, 104, 101, 108, 108, 111] ∧
    (uploadBundle 1 2 (Sys.start (fun _ => 1) [0, 2, 0, 0, 4, 1, 2, 3, 4])
        [104, 101, 108, 108, 111]).1.wire.length = 10 :=
  uploadBundle_writes_frame 1 2 (Sys.start (fun _ => 1) [0, 2, 0, 0, 4, 1, 2, 3, 4])
    [104, 101, 108, 108, 111] ⟨2, [1, 2, 3, 4]⟩ (by decide) (by decide) (by decide)

/-! ## The read side -/

theorem read_spec (t : Sys) (buf : List Nat) (length : Nat)
    (h64 : length < 18446744073709551616) (hb : buf.length = length)
    (hin : length ≤ t.incoming.length) (hp : Progress t) (hnt : NoTrunc t length) :
    ∃ tr, read t buf length
      = ({ t with incoming := t.incoming.drop length, trace := tr },
          .ok (t.incoming.take length)) := by
  have := readLoop_spec length h64 length t buf 0 hb (Nat.zero_le _) (by omega) (by omega) hp hnt
  simpa [read] using this

theorem write_spec (t : Sys) (buf : List Nat) (length : Nat)
    (h64 : length < 18446744073709551616) (hp : Progress t) (hnt : NoTrunc t length) :
    ∃ tr, write t buf length
      = ({ t with wire := t.wire ++ buf.take length, trace := tr }, .ok ()) := by
  have := writeLoop_spec buf length h64 length t 0 (Nat.zero_le _) (by omega) hp hnt
  simpa [write] using this

theorem readByte_fail (t : Sys) (h : t.script t.trace.length ≤ 0) :
    readByte t =
      ({ t with trace := t.trace ++ [⟨false, 1, failValue (t.script t.trace.length), []⟩] },
        .error .assertRead) := by
  have hf := toInt32_failValue (t.script t.trace.length)
  simp [readByte, read, readLoop_succ, sysRead_fail, h, not_lt.mpr hf]

theorem readByte_move (t : Sys) (v : Nat) (rest : List Nat) (h : 0 < t.script t.trace.length)
    (hin : t.incoming = v :: rest) :
    readByte t =
      ({ t with incoming := rest, trace := t.trace ++ [⟨false, 1, 1, [v]⟩] }, .ok v) := by
  have hm : min (min (t.script t.trace.length).toNat 1) (t.incoming.length) = 1 := by
    rw [hin]; simp; omega
  simp only [readByte, read, readLoop_succ _ _ _ _ _ (show 0 < 1 by omega), sysRead_move _ _ h,
    Nat.sub_zero, hm]
  simp [toInt32_small, readLoop_done, hin]

theorem readByte_eof (t : Sys) (h : 0 < t.script t.trace.length) (hin : t.incoming = []) :
    readByte t =
      ({ t with trace := t.trace ++ [⟨false, 1, 0, []⟩] }, .error .assertRead) := by
  have hm : min (min (t.script t.trace.length).toNat 1) (t.incoming.length) = 0 := by
    rw [hin]; simp
  simp only [readByte, read, readLoop_succ _ _ _ _ _ (show 0 < 1 by omega), sysRead_move _ _ h,
    Nat.sub_zero, hm]
  simp [toInt32, hin]

theorem readByte_progress (t : Sys) (v : Nat) (rest : List Nat) (hp : Progress t)
    (hin : t.incoming = v :: rest) :
    readByte t =
      ({ t with incoming := rest, trace := t.trace ++ [⟨false, 1, 1, [v]⟩] }, .ok v) :=
  readByte_move t v rest (by have := hp t.trace.length; omega) hin

theorem readLength_three_spec (t : Sys) (a b c : Nat) (rest : List Nat) (hp : Progress t)
    (ha : a < 256) (hb : b < 256) (hc : c < 256) (hin : t.incoming = a :: b :: c :: rest) :
    ∃ tr, readLength t 3 =
      ({ t with incoming := rest, trace := tr }, .ok (a * 65536 + b * 256 + c)) := by
  obtain ⟨tr, h⟩ := read_spec t (List.replicate 3 0) 3 (by omega) (by simp)
    (by rw [hin]; simp) hp (Or.inl (by omega))
  refine ⟨tr, ?_⟩
  simp only [readLength, h, hin]
  simp [List.range_succ, Nat.shiftLeft_eq]
  omega

theorem readString_spec (t : Sys) (length : Nat) (h : length < 2147483648)
    (hin : length ≤ t.incoming.length) (hp : Progress t) :
    ∃ tr, readString t length =
      ({ t with incoming := t.incoming.drop length, trace := tr },
        .ok (t.incoming.take length)) := by
  obtain ⟨tr, h⟩ := read_spec t (List.replicate length 0) length (by omega) (by simp)
    hin hp (Or.inl h)
  refine ⟨tr, ?_⟩
  simp only [readString, h]
  simp [List.take_take]

/-! ## HexString and readResponse on a well-formed reply -/

theorem HexStringLoop_eq (data : List Nat) (hlen : data.length < 4294967296) :
    ∀ (fuel i : Nat) (ret : List Char), i ≤ data.length → data.length - i ≤ fuel →
      HexStringLoop fuel data i ret = some (ret ++ hexChars (data.drop i)) := by
  intro fuel
  induction fuel with
  | zero =>
    intro i ret hi hf
    have : data.length ≤ i := by omega
    simp [HexStringLoop, not_lt.mpr this, List.drop_of_length_le this, hexChars]
  | succ fuel ih =>
    intro i ret hi hf
    by_cases hlt : i < data.length
    · have hmod : (i + 1) % 4294967296 = i + 1 := Nat.mod_eq_of_lt (by omega)
      have hd : data.drop i = data[i] :: data.drop (i + 1) := List.drop_eq_getElem_cons hlt
      have hg : data.getD i 0 = data[i] := by
        simp [List.getD_eq_getElem?_getD, List.getElem?_eq_getElem hlt]
      simp only [HexStringLoop, hlt, if_true, hmod]
      rw [ih (i + 1) _ (by omega) (by omega), hd, hg]
      simp [hexChars]
    · have : data.length ≤ i := by omega
      simp [HexStringLoop, hlt, List.drop_of_length_le this, hexChars]

theorem HexString_eq (data : List Nat) (hlen : data.length < 4294967296) :
    HexString data = some (hexChars data) := by
  have := HexStringLoop_eq data hlen data.length 0 [] (Nat.zero_le _) (by omega)
  simpa [HexString] using this

theorem report_spec (S : Nat) (t : Sys) (code length : Nat) (data : List Nat)
    (hlen : data.length < 4294967296) :
    ∃ o, report S t code length data = ({ t with out := o }, .ok ()) := by
  unfold report
  simp only [HexString_eq data hlen]
  split
  · exact ⟨_, rfl⟩
  · exact ⟨_, rfl⟩

theorem be3_lt (n : Nat) : n / 65536 % 256 < 256 ∧ n / 256 % 256 < 256 ∧ n % 256 < 256 := by
  omega

theorem be3_value (n : Nat) (h : n < 16777216) :
    n / 65536 % 256 * 65536 + n / 256 % 256 * 256 + n % 256 = n := by
  omega

theorem readResponse_spec (S : Nat) (t : Sys) (c : Nat) (d r : List Nat) (hp : Progress t)
    (hd : d.length < 16777216)
    (hin : t.incoming =
      [0, c, d.length / 65536 % 256, d.length / 256 % 256, d.length % 256] ++ d ++ r) :
    ∃ tr o, readResponse S t = ({ t with incoming := r, trace := tr, out := o }, .ok ⟨c, d⟩) := by
  have hin1 : t.incoming = 0 :: c :: d.length / 65536 % 256 :: d.length / 256 % 256
      :: d.length % 256 :: (d ++ r) := by simpa using hin
  unfold readResponse
  rw [readByte_progress t 0 _ hp hin1]
  simp only [VERSION, ne_eq, not_true_eq_false, if_false]
  rw [readByte_progress _ c (d.length / 65536 % 256 :: d.length / 256 % 256
      :: d.length % 256 :: (d ++ r)) (by exact hp) rfl]
  simp only []
  obtain ⟨h1, h2, h3⟩ := be3_lt d.length
  obtain ⟨tr3, e3⟩ := readLength_three_spec
    (Sys.mk t.script
      (d.length / 65536 % 256 :: d.length / 256 % 256 :: d.length % 256 :: (d ++ r))
      t.wire ((t.trace ++ [⟨false, 1, 1, [0]⟩]) ++ [⟨false, 1, 1, [c]⟩]) t.out)
    _ _ _ (d ++ r) (by exact hp) h1 h2 h3 rfl
  rw [e3, be3_value d.length hd]
  simp only []
  obtain ⟨tr4, e4⟩ := readString_spec
    (Sys.mk t.script (d ++ r) t.wire tr3 t.out) d.length (by omega) (by simp) (by exact hp)
  rw [e4]
  simp only [List.take_left', List.drop_left']
  obtain ⟨o, e5⟩ := report_spec S (Sys.mk t.script r t.wire tr4 t.out) c d.length d (by omega)
  rw [e5]
  exact ⟨tr4, o, rfl⟩

/-! ## C4 and C5 -/

/-- C4: over a socket that moves at least one byte per call, if the incoming
stream is `[0, c, len(d) as 3 bytes big-endian] ++ d ++ r` with
`len(d) < 2^24`, then `readResponse` returns normally with `code = c` and
`data = d`, having consumed exactly the `5 + len(d)` bytes of the frame: `r`
is what is left unread.  In particular the stream
`[0, SUBMITTED, 0, 0, 4, 1, 2, 3, 4]` gives code `SUBMITTED`, data
`[1, 2, 3, 4]`. -/
theorem readResponse_decodes_frame (SUBMITTED : Nat) (t : Sys) (c : Nat) (d r : List Nat)
    (hp : Progress t) (hd : d.length < 16777216)
    (hin : t.incoming =
      [0, c, d.length / 65536 % 256, d.length / 256 % 256, d.length % 256] ++ d ++ r) :
    (readResponse SUBMITTED t).2 = .ok ⟨c, d⟩ ∧
    (readResponse SUBMITTED t).1.incoming = r ∧
    t.incoming.length = (5 + d.length) + (readResponse SUBMITTED t).1.incoming.length ∧
    (∀ u : Sys, Progress u → u.incoming = [0, SUBMITTED, 0, 0, 4, 1, 2, 3, 4] →
      (readResponse SUBMITTED u).2 = .ok ⟨SUBMITTED, [1, 2, 3, 4]⟩ ∧
      (readResponse SUBMITTED u).1.incoming = []) := by
  obtain ⟨tr, o, h⟩ := readResponse_spec SUBMITTED t c d r hp hd hin
  refine ⟨by rw [h], by rw [h], ?_, ?_⟩
  · rw [h, hin]; simp only [List.length_append, List.length_cons, List.length_nil]
  · intro u hu hin2
    obtain ⟨tr2, o2, h2⟩ := readResponse_spec SUBMITTED u SUBMITTED [1, 2, 3, 4] [] hu
      (by decide) (by rw [hin2]; rfl)
    exact ⟨by rw [h2], by rw [h2]⟩

/-- Witness for C4: the reply of the spec's scenario followed by two more
bytes, read one byte per call. -/
theorem readResponse_decodes_frame_witness :
    (readResponse 2 (Sys.start (fun _ => 1) [0, 2, 0, 0, 4, 1, 2, 3, 4, 9, 9])).2
      = .ok ⟨2, [1, 2, 3, 4]⟩ ∧
    (readResponse 2 (Sys.start (fun _ => 1) [0, 2, 0, 0, 4, 1, 2, 3, 4, 9, 9])).1.incoming
      = [9, 9] :=
  have h := readResponse_decodes_frame 2 (Sys.start (fun _ => 1) [0, 2, 0, 0, 4, 1, 2, 3, 4, 9, 9])
    2 [1, 2, 3, 4] [9, 9] (fun _ => Int.le_refl 1) (by decide) (by decide)
  ⟨h.1, h.2.1⟩

/-- C5: when the first byte `v` the socket delivers is not `VERSION` (0),
`readResponse` stops at `assert(version == VERSION)`: exactly that one byte
has been consumed, the single system call made is the one-byte read that
delivered it, and nothing was written or printed. -/
theorem readResponse_version_mismatch (SUBMITTED : Nat) (t : Sys) (v : Nat) (rest : List Nat)
    (hk : 0 < t.script t.trace.length) (hin : t.incoming = v :: rest) (hv : v ≠ 0) :
    (readResponse SUBMITTED t).2 = .error .assertVersion ∧
    (readResponse SUBMITTED t).1.incoming = rest ∧
    (readResponse SUBMITTED t).1.trace = t.trace ++ [⟨false, 1, 1, [v]⟩] ∧
    (readResponse SUBMITTED t).1.wire = t.wire ∧
    (readResponse SUBMITTED t).1.out = t.out := by
  unfold readResponse
  rw [readByte_move t v rest hk hin]
  simp [VERSION, hv]

/-- Witness for C5: the reply of the spec's scenario with version 1. -/
theorem readResponse_version_mismatch_witness :
    (readResponse 2 (Sys.start (fun _ => 1) [1, 2, 0, 0, 4, 1, 2, 3, 4])).2
      = .error .assertVersion ∧
    (readResponse 2 (Sys.start (fun _ => 1) [1, 2, 0, 0, 4, 1, 2, 3, 4])).1.incoming
      = [2, 0, 0, 4, 1, 2, 3, 4] ∧
    (readResponse 2 (Sys.start (fun _ => 1) [1, 2, 0, 0, 4, 1, 2, 3, 4])).1.trace
      = [⟨false, 1, 1, [1]⟩] :=
  have h := readResponse_version_mismatch 2 (Sys.start (fun _ => 1) [1, 2, 0, 0, 4, 1, 2, 3, 4])
    1 [2, 0, 0, 4, 1, 2, 3, 4] (by decide) rfl (by decide)
  ⟨h.1, h.2.1, h.2.2.1⟩

/-! ## C2 and C9 -/

/-- C2: round trip.  For a command byte `C` and a payload `p` with
`len(p) < 2^24`, over sockets that move at least one byte per call: the bytes
that `writeCommand(C, len(p))` followed by `write(p)` put on the wire, fed to
`readByte`, `readByte`, `readLength(3)`, `readString` in this order, give
version 0, command `C`, length `len(p)` and data `p`, and no byte is left
over. -/
theorem command_frame_round_trip (C : Nat) (p : List Nat) (tw tr : Sys)
    (hC : C < 256) (hp : p.length < 16777216) (hw : Progress tw) (hr : Progress tr)
    (hwire : tw.wire = [])
    (hin : tr.incoming = (write (writeCommand tw C p.length).1 p p.length).1.wire) :
    (writeCommand tw C p.length).2 = .ok () ∧
    (write (writeCommand tw C p.length).1 p p.length).2 = .ok () ∧
    ∃ t1 t2 t3 t4, readByte tr = (t1, .ok 0) ∧ readByte t1 = (t2, .ok C) ∧
      readLength t2 3 = (t3, .ok p.length) ∧ readString t3 p.length = (t4, .ok p) ∧
      t4.incoming = [] := by
  have hc := writeCommand_progress tw C p.length hw hp
  obtain ⟨_, trc, ec⟩ := writeCommand_ok_state tw C p.length hc
  rw [ec] at hin ⊢
  obtain ⟨trw, ew⟩ := write_spec
    (Sys.mk tw.script tw.incoming
      (tw.wire ++ [0, C % 256, p.length / 65536 % 256, p.length / 256 % 256, p.length % 256])
      trc tw.out) p p.length (by omega) (by exact hw) (Or.inl (by omega))
  rw [ew] at hin ⊢
  simp only [hwire, List.nil_append, List.take_length, Nat.mod_eq_of_lt hC] at hin
  refine ⟨rfl, rfl, ?_⟩
  have hin1 : tr.incoming = 0 :: C :: p.length / 65536 % 256 :: p.length / 256 % 256
      :: p.length % 256 :: (p ++ []) := by simpa using hin
  obtain ⟨h1, h2, h3⟩ := be3_lt p.length
  obtain ⟨tr3, e3⟩ := readLength_three_spec
    (Sys.mk tr.script
      (p.length / 65536 % 256 :: p.length / 256 % 256 :: p.length % 256 :: (p ++ []))
      tr.wire ((tr.trace ++ [⟨false, 1, 1, [0]⟩]) ++ [⟨false, 1, 1, [C]⟩]) tr.out)
    _ _ _ (p ++ []) (by exact hr) h1 h2 h3 rfl
  rw [be3_value p.length hp] at e3
  obtain ⟨tr4, e4⟩ := readString_spec
    (Sys.mk tr.script (p ++ []) tr.wire tr3 tr.out) p.length (by omega) (by simp) (by exact hr)
  simp only [List.take_left', List.drop_left'] at e4
  exact ⟨_, _, _, _, readByte_progress tr 0 _ hr hin1,
    readByte_progress _ C _ (by exact hr) rfl, e3, e4, rfl⟩

/-- Witness for C2: command 1 with the payload "hello", written and read back
one byte per call. -/
theorem command_frame_round_trip_witness :
    ∃ t1 t2 t3 t4,
      readByte (Sys.start (fun _ => 1) [0, 1, 0, 0, 5, 104, 101, 108, 108, 111]) = (t1, .ok 0) ∧
      readByte t1 = (t2, .ok 1) ∧ readLength t2 3 = (t3, .ok 5) ∧
      readString t3 5 = (t4, .ok [104, 101, 108, 108, 111]) ∧ t4.incoming = [] :=
  (command_frame_round_trip 1 [104, 101, 108, 108, 111] (Sys.start (fun _ => 1) [])
    (Sys.start (fun _ => 1) [0, 1, 0, 0, 5, 104, 101, 108, 108, 111])
    (by decide) (by decide) (fun _ => Int.le_refl 1) (fun _ => Int.le_refl 1) rfl
    (by decide)).2.2

/-- C9: the 3-byte length field is big-endian.  Over sockets that move at
least one byte per call: for `n < 2^24`, `writeLength(n, 3)` emits exactly
`[(n / 65536) mod 256, (n / 256) mod 256, n mod 256]`; for three bytes
`a, b, c` on the stream, `readLength(3)` consumes them and returns
`a * 65536 + b * 256 + c`; `readLength(3)` on what `writeLength(n, 3)`
emitted returns `n`; and `0x010203` corresponds to `[1, 2, 3]` both ways. -/
theorem length_field_big_endian (tw tr : Sys) (n a b c : Nat) (rest : List Nat)
    (hw : Progress tw) (hr : Progress tr) (hn : n < 16777216)
    (ha : a < 256) (hb : b < 256) (hc : c < 256) (hin : tr.incoming = a :: b :: c :: rest) :
    ((writeLength tw n 3).2 = .ok () ∧
      (writeLength tw n 3).1.wire = tw.wire ++ [n / 65536 % 256, n / 256 % 256, n % 256]) ∧
    ((readLength tr 3).2 = .ok (a * 65536 + b * 256 + c) ∧
      (readLength tr 3).1.incoming = rest) ∧
    (∀ u : Sys, Progress u →
      u.incoming = (writeLength tw n 3).1.wire.drop tw.wire.length →
      (readLength u 3).2 = .ok n) ∧
    ((writeLength tw 0x010203 3).2 = .ok () ∧
      (writeLength tw 0x010203 3).1.wire = tw.wire ++ [0x01, 0x02, 0x03]) ∧
    (∀ u : Sys, Progress u → u.incoming = [0x01, 0x02, 0x03] →
      (readLength u 3).2 = .ok 0x010203) := by
  have hwr : ∀ m, m < 16777216 → (writeLength tw m 3).2 = .ok () ∧
      (writeLength tw m 3).1.wire = tw.wire ++ [m / 65536 % 256, m / 256 % 256, m % 256] := by
    intro m hm
    have h1 := writeLength_three_progress tw m hw hm
    obtain ⟨_, trw, e⟩ := writeLength_three_ok_state tw m h1
    exact ⟨h1, by rw [e]⟩
  have hrd : ∀ (u : Sys) (x y z : Nat) (l : List Nat), Progress u → x < 256 → y < 256 →
      z < 256 → u.incoming = x :: y :: z :: l →
      (readLength u 3).2 = .ok (x * 65536 + y * 256 + z) ∧ (readLength u 3).1.incoming = l := by
    intro u x y z l hu hx hy hz hl
    obtain ⟨tr3, e⟩ := readLength_three_spec u x y z l hu hx hy hz hl
    exact ⟨by rw [e], by rw [e]⟩
  refine ⟨hwr n hn, hrd tr a b c rest hr ha hb hc hin, ?_, hwr 0x010203 (by decide), ?_⟩
  · intro u hu hu2
    rw [(hwr n hn).2, List.drop_left] at hu2
    obtain ⟨h1, h2, h3⟩ := be3_lt n
    have := (hrd u _ _ _ [] hu h1 h2 h3 hu2).1
    rw [be3_value n hn] at this
    exact this
  · intro u hu hu2
    exact (hrd u 1 2 3 [] hu (by decide) (by decide) (by decide) hu2).1

/-- Witness for C9: the length `0x0a0b0c` written, and the bytes `[1, 2, 3]`
read, one byte per call. -/
theorem length_field_big_endian_witness :
    (writeLength (Sys.start (fun _ => 1) []) 0x0a0b0c 3).1.wire = [0x0a, 0x0b, 0x0c] ∧
    (readLength (Sys.start (fun _ => 1) [1, 2, 3, 4]) 3).2 = .ok 0x010203 :=
  have h := length_field_big_endian (Sys.start (fun _ => 1) [])
    (Sys.start (fun _ => 1) [1, 2, 3, 4]) 0x0a0b0c 1 2 3 [4]
    (fun _ => Int.le_refl 1) (fun _ => Int.le_refl 1) (by decide) (by decide) (by decide)
    (by decide) rfl
  ⟨h.1.2, h.2.1.1⟩

/-! ## C3: a payload that does not fit the length field -/

theorem writeLength_three_too_long (t : Sys) (length : Nat) (h : 16777216 ≤ length) :
    writeLength t length 3 = (t, .error .assertLength) := by
  have hs : shl32 1 (3 * 8) = 16777216 := by decide
  simp [writeLength, hs, not_lt.mpr h]

/-- What `uploadBundle` does with a payload of `2^24` bytes or more, by what
the socket does with the first two writes. -/
theorem uploadBundle_oversize (U S : Nat) (t : Sys) (p : List Nat)
    (hlen : 16777216 ≤ p.length) :
    (t.script t.trace.length ≤ 0 →
      uploadBundle U S t p =
        ({ t with trace := t.trace ++ [⟨true, 1, failValue (t.script t.trace.length), []⟩] },
          .error .assertWrite)) ∧
    (0 < t.script t.trace.length → t.script (t.trace.length + 1) ≤ 0 →
      uploadBundle U S t p =
        ({ t with wire := t.wire ++ [0],
                  trace := t.trace ++ [⟨true, 1, 1, [0]⟩,
                    ⟨true, 1, failValue (t.script (t.trace.length + 1)), []⟩] },
          .error .assertWrite)) ∧
    (0 < t.script t.trace.length → 0 < t.script (t.trace.length + 1) →
      uploadBundle U S t p =
        ({ t with wire := t.wire ++ [0, U % 256],
                  trace := t.trace ++ [⟨true, 1, 1, [0]⟩, ⟨true, 1, 1, [U % 256]⟩] },
          .error .assertLength)) := by
  refine ⟨?_, ?_, ?_⟩
  · intro h0
    simp [uploadBundle, writeCommand, writeByte_fail _ _ h0]
  · intro h0 h1
    simp only [uploadBundle, writeCommand, writeByte_move _ _ h0]
    rw [writeByte_fail _ _ (by simpa using h1)]
    simp [VERSION]
  · intro h0 h1
    simp only [uploadBundle, writeCommand, writeByte_move _ _ h0]
    rw [writeByte_move _ _ (by simpa using h1)]
    simp [VERSION, writeLength_three_too_long _ _ hlen]

/-- C3 (as amended): for a payload of `2^24` bytes or more `uploadBundle`
fails, no read is issued, and no byte of the length field or of the payload
is written; but the rejection is the assertion in `writeLength`, which comes
after the version and command bytes were handed to the socket: the calls made
are one-byte writes, what reached the wire is a prefix of
`[0, UPLOAD_BUNDLE]`, and when the socket accepts both bytes the run ends at
the length assertion with exactly `[0, UPLOAD_BUNDLE]` written. -/
theorem uploadBundle_oversize_rejected (UPLOAD_BUNDLE SUBMITTED : Nat) (t : Sys) (p : List Nat)
    (hcmd : UPLOAD_BUNDLE < 256) (hlen : 16777216 ≤ p.length) :
    (∃ e, (uploadBundle UPLOAD_BUNDLE SUBMITTED t p).2 = .error e) ∧
    (uploadBundle UPLOAD_BUNDLE SUBMITTED t p).1.incoming = t.incoming ∧
    (∃ seg w, (uploadBundle UPLOAD_BUNDLE SUBMITTED t p).1.trace = t.trace ++ seg ∧
      (∀ c ∈ seg, c.isWrite = true ∧ c.req = 1) ∧
      (uploadBundle UPLOAD_BUNDLE SUBMITTED t p).1.wire = t.wire ++ w ∧
      w <+: [0, UPLOAD_BUNDLE]) ∧
    (0 < t.script t.trace.length → 0 < t.script (t.trace.length + 1) →
      (uploadBundle UPLOAD_BUNDLE SUBMITTED t p).2 = .error .assertLength ∧
      (uploadBundle UPLOAD_BUNDLE SUBMITTED t p).1.wire = t.wire ++ [0, UPLOAD_BUNDLE] ∧
      (uploadBundle UPLOAD_BUNDLE SUBMITTED t p).1.trace =
        t.trace ++ [⟨true, 1, 1, [0]⟩, ⟨true, 1, 1, [UPLOAD_BUNDLE]⟩]) := by
  obtain ⟨ha, hb, hc⟩ := uploadBundle_oversize UPLOAD_BUNDLE SUBMITTED t p hlen
  have hU : UPLOAD_BUNDLE % 256 = UPLOAD_BUNDLE := Nat.mod_eq_of_lt hcmd
  rw [hU] at hc
  refine ⟨?_, ?_, ?_, ?_⟩
  · rcases le_or_lt (t.script t.trace.length) 0 with h0 | h0
    · exact ⟨_, by rw [ha h0]⟩
    · rcases le_or_lt (t.script (t.trace.length + 1)) 0 with h1 | h1
      · exact ⟨_, by rw [hb h0 h1]⟩
      · exact ⟨_, by rw [hc h0 h1]⟩
  · rcases le_or_lt (t.script t.trace.length) 0 with h0 | h0
    · rw [ha h0]
    · rcases le_or_lt (t.script (t.trace.length + 1)) 0 with h1 | h1
      · rw [hb h0 h1]
      · rw [hc h0 h1]
  · rcases le_or_lt (t.script t.trace.length) 0 with h0 | h0
    · refine ⟨_, [], by rw [ha h0], ?_, by rw [ha h0]; simp, by simp⟩
      intro c hc; simp at hc; subst hc; exact ⟨rfl, rfl⟩
    · rcases le_or_lt (t.script (t.trace.length + 1)) 0 with h1 | h1
      · refine ⟨_, [0], by rw [hb h0 h1], ?_, by rw [hb h0 h1], ⟨[UPLOAD_BUNDLE], rfl⟩⟩
        intro c hc; simp at hc
        rcases hc with hc | hc <;> subst hc <;> exact ⟨rfl, rfl⟩
      · refine ⟨_, [0, UPLOAD_BUNDLE], by rw [hc h0 h1], ?_, by rw [hc h0 h1],
          List.prefix_refl _⟩
        intro c hc; simp at hc
        rcases hc with hc | hc <;> subst hc <;> exact ⟨rfl, rfl⟩
  · intro h0 h1
    rw [hc h0 h1]
    exact ⟨rfl, rfl, rfl⟩

/-- Witness for C3 (as amended): a payload of `2^24` zero bytes, command 1,
over a socket that moves one byte per call. -/
theorem uploadBundle_oversize_rejected_witness :
    (uploadBundle 1 2 (Sys.start (fun _ => 1) []) (List.replicate 16777216 0)).2
      = .error .assertLength ∧
    (uploadBundle 1 2 (Sys.start (fun _ => 1) []) (List.replicate 16777216 0)).1.wire
      = [0, 1] :=
  have h := (uploadBundle_oversize_rejected 1 2 (Sys.start (fun _ => 1) [])
    (List.replicate 16777216 0) (by decide) (by rw [List.length_replicate])).2.2.2
    (by decide) (by decide)
  ⟨h.1, h.2.1⟩

/-- Counterexample to C3 as stated: a payload of `2^24` zero bytes is
rejected only after two bytes have been written; the trace of the socket is
not empty. -/
theorem uploadBundle_oversize_counterexample :
    (List.replicate 16777216 0).length = 16777216 ∧
    (uploadBundle 1 2 (Sys.start (fun _ => 1) []) (List.replicate 16777216 0)).2
      = .error .assertLength ∧
    (uploadBundle 1 2 (Sys.start (fun _ => 1) []) (List.replicate 16777216 0)).1.wire
      = [0, 1] ∧
    (uploadBundle 1 2 (Sys.start (fun _ => 1) []) (List.replicate 16777216 0)).1.trace
      = [⟨true, 1, 1, [0]⟩, ⟨true, 1, 1, [1]⟩] ∧
    (uploadBundle 1 2 (Sys.start (fun _ => 1) []) (List.replicate 16777216 0)).1.trace ≠ [] := by
  have h := (uploadBundle_oversize 1 2 (Sys.start (fun _ => 1) [])
    (List.replicate 16777216 0) (by rw [List.length_replicate])).2.2 (by decide) (by decide)
  refine ⟨List.length_replicate _ _, by rw [h], by rw [h]; rfl, by rw [h]; rfl, ?_⟩
  rw [h]; exact List.cons_ne_nil _ _

/-! ## C6 and C10 -/

/-- C6: partial I/O masking.  Let the socket move at least one byte in every
call (in particular always exactly one).  For every buffer `b` and every
count `n` the client can pass to its private `write` and `read` (it passes 1,
3 or fewer than `2^24` bytes; the theorem takes any length below `2^31`, and
any `size_t` length when the socket moves fewer than `2^31` bytes per call):
`write(b, len(b))` returns normally after the socket has accepted exactly the
bytes of `b`, in order, each once; and `read(buf, n)` on a stream `s` with
`len(s) ≥ n` returns normally with `buf` holding exactly the first `n` bytes
of `s`, which are consumed from the stream. -/
theorem write_read_mask_partial_io (t : Sys) (b buf : List Nat) (n : Nat)
    (hp : Progress t) (hwn : NoTrunc t b.length) (hrn : NoTrunc t n)
    (hb : b.length < 18446744073709551616) (hn : n < 18446744073709551616)
    (hbuf : buf.length = n) (hs : n ≤ t.incoming.length) :
    ((write t b b.length).2 = .ok () ∧ (write t b b.length).1.wire = t.wire ++ b) ∧
    ((read t buf n).2 = .ok (t.incoming.take n) ∧
      (read t buf n).1.incoming = t.incoming.drop n) := by
  obtain ⟨trw, ew⟩ := write_spec t b b.length hb hp hwn
  obtain ⟨trr, er⟩ := read_spec t buf n hn hbuf hs hp hrn
  rw [ew, er]
  simp

/-- Witness for C6: five bytes written and three of five bytes
read over a socket that moves exactly one byte per call. -/
theorem write_read_mask_partial_io_witness :
    ((write (Sys.start (fun _ => 1) [1, 2, 3, 4, 5]) [10, 20, 30, 40, 50] 5).2 = .ok () ∧
      (write (Sys.start (fun _ => 1) [1, 2, 3, 4, 5]) [10, 20, 30, 40, 50] 5).1.wire
        = [10, 20, 30, 40, 50]) ∧
    ((read (Sys.start (fun _ => 1) [1, 2, 3, 4, 5]) [0, 0, 0] 3).2 = .ok [1, 2, 3] ∧
      (read (Sys.start (fun _ => 1) [1, 2, 3, 4, 5]) [0, 0, 0] 3).1.incoming = [4, 5]) :=
  write_read_mask_partial_io (Sys.start (fun _ => 1) [1, 2, 3, 4, 5]) [10, 20, 30, 40, 50]
    [0, 0, 0] 3 (fun _ => Int.le_refl 1) (Or.inl (by decide)) (Or.inl (by decide))
    (by decide) (by decide) rfl (by decide)

theorem write_int_overflow (t : Sys) (buf : List Nat)
    (hk : t.script t.trace.length = 2147483648) :
    (write t buf 2147483648).2 = .error .assertWrite := by
  have h0 : (0 : Int) < t.script t.trace.length := by rw [hk]; decide
  have hw : write t buf 2147483648 = writeLoop (2147483647 + 1) t buf 2147483648 0 := rfl
  rw [hw, writeLoop_succ _ _ _ _ _ (by decide), sysWrite_move _ _ _ h0, hk]
  simp [toInt32]

theorem writeLength_wide (t : Sys) (n w : Nat) (h4 : 4 ≤ w) (h8 : w ≤ 8) :
    writeLength t n w = (t, .error .assertLength) := by
  have hs : shl32 1 (w * 8) = 0 := by
    interval_cases w <;> decide
  simp [writeLength, hs, h8]

/-! ## C8: HexString -/

theorem nibble_eq_lowerHexDigit (x : Nat) (h : x < 16) :
    nibble.getD x '0' = lowerHexDigit x := by
  interval_cases x <;> rfl

theorem high_nibble (b : Nat) : (b >>> 4) &&& 0xf = b / 16 % 16 := by
  have h : (0xf : Nat) = 2 ^ 4 - 1 := by norm_num
  rw [h, Nat.and_pow_two_sub_one_eq_mod, Nat.shiftRight_eq_div_pow]

theorem low_nibble (b : Nat) : b &&& 0xf = b % 16 := by
  have h : (0xf : Nat) = 2 ^ 4 - 1 := by norm_num
  rw [h, Nat.and_pow_two_sub_one_eq_mod]

theorem hexChars_length (d : List Nat) : (hexChars d).length = 2 * d.length := by
  induction d with
  | nil => rfl
  | cons b rest ih => simp only [hexChars, List.length_cons, ih]; omega

theorem hexChars_get (d : List Nat) :
    ∀ (i : Nat) (hi : i < d.length),
      (hexChars d)[2 * i]? = some (lowerHexDigit (d[i] / 16 % 16)) ∧
      (hexChars d)[2 * i + 1]? = some (lowerHexDigit (d[i] % 16)) := by
  induction d with
  | nil => intro i hi; simp at hi
  | cons b rest ih =>
    intro i hi
    cases i with
    | zero =>
      simp only [hexChars, Nat.mul_zero, List.getElem?_cons_zero, Nat.zero_add,
        List.getElem?_cons_succ, List.getElem_cons_zero]
      rw [high_nibble, low_nibble]
      exact ⟨by rw [nibble_eq_lowerHexDigit _ (Nat.mod_lt _ (by decide))],
        by rw [nibble_eq_lowerHexDigit _ (Nat.mod_lt _ (by decide))]⟩
    | succ j =>
      have hj : j < rest.length := by simpa using hi
      obtain ⟨h1, h2⟩ := ih j hj
      have e1 : 2 * (j + 1) = (2 * j + 1) + 1 := by omega
      have e2 : 2 * (j + 1) + 1 = (2 * j + 1 + 1) + 1 := by omega
      simp only [hexChars, List.getElem_cons_succ]
      rw [e2, e1]
      simp only [List.getElem?_cons_succ]
      exact ⟨h1, h2⟩

/-- C8: for every byte sequence `d` that `HexString` can be given (its only
caller passes data shorter than `2^24` bytes; the theorem takes any length
below `2^32`), `HexString(d)` returns a string of exactly `2 * len(d)`
characters in which
character `2i` is the lowercase hexadecimal digit of the high nibble of
`d[i]` and character `2i + 1` that of its low nibble; `[0xDE, 0xAD, 0xBE,
0xEF]` gives "deadbeef" and the empty sequence gives the empty string. -/
theorem HexString_lowercase_digits (d : List Nat) (hlen : d.length < 4294967296) :
    (∃ s, HexString d = some s ∧ s.length = 2 * d.length ∧
      ∀ (i : Nat) (hi : i < d.length),
        s[2 * i]? = some (lowerHexDigit (d[i] / 16 % 16)) ∧
        s[2 * i + 1]? = some (lowerHexDigit (d[i] % 16))) ∧
    HexString [0xDE, 0xAD, 0xBE, 0xEF] = some "deadbeef".data ∧
    HexString [] = some "".data :=
  ⟨⟨hexChars d, HexString_eq d hlen, hexChars_length d, hexChars_get d⟩, by decide, by decide⟩

/-- Witness for C8: the two bytes `0x0f, 0xa5`. -/
theorem HexString_lowercase_digits_witness :
    ∃ s, HexString [0x0f, 0xa5] = some s ∧ s.length = 2 * [0x0f, 0xa5].length ∧
      ∀ (i : Nat) (hi : i < [0x0f, 0xa5].length),
        s[2 * i]? = some (lowerHexDigit ([0x0f, 0xa5][i] / 16 % 16)) ∧
        s[2 * i + 1]? = some (lowerHexDigit ([0x0f, 0xa5][i] % 16)) :=
  (HexString_lowercase_digits [0x0f, 0xa5] (by decide)).1

theorem HexStringLoop_wraps (data : List Nat) (hlen : 4294967296 ≤ data.length) :
    ∀ (fuel i : Nat) (ret : List Char), i < 4294967296 →
      HexStringLoop fuel data i ret = none := by
  intro fuel
  induction fuel with
  | zero =>
    intro i ret hi
    simp [HexStringLoop, show i < data.length by omega]
  | succ fuel ih =>
    intro i ret hi
    simp only [HexStringLoop, show i < data.length by omega, if_true]
    exact ih _ _ (Nat.mod_lt _ (by decide))

/-- Beyond what the caller passes: on a sequence of `2^32` bytes the loop of
`HexString` never ends (the `unsigned int` index wraps to 0 before it can
reach `data.size()`), so no string is returned, whatever the fuel. -/
theorem HexString_beyond_index_range :
    (List.replicate 4294967296 0).length = 4294967296 ∧
    HexString (List.replicate 4294967296 0) = none ∧
    ¬ ∃ fuel s, HexStringLoop fuel (List.replicate 4294967296 0) 0 [] = some s := by
  have hl : (List.replicate 4294967296 0).length = 4294967296 := List.length_replicate _ _
  refine ⟨hl, ?_, ?_⟩
  · exact HexStringLoop_wraps _ (by rw [hl]) _ 0 [] (by decide)
  · rintro ⟨fuel, s, h⟩
    rw [HexStringLoop_wraps _ (by rw [hl]) fuel 0 [] (by decide)] at h
    cases h

/-! ## Traces: a call without progress ends the run -/

theorem write_trace (t : Sys) (buf : List Nat) (length : Nat) :
    TraceInv t (write t buf length).1 (faultOf (write t buf length).2) :=
  writeLoop_trace buf length length t 0

theorem read_trace (t : Sys) (buf : List Nat) (length : Nat) :
    TraceInv t (read t buf length).1 (faultOf (read t buf length).2) :=
  readLoop_trace length length t buf 0

theorem writeByte_trace (t : Sys) (b : Nat) :
    TraceInv t (writeByte t b).1 (faultOf (writeByte t b).2) :=
  write_trace t [b % 256] 1

theorem writeLengthLoop_trace (length : Nat) :
    ∀ (k : Nat) (t : Sys),
      TraceInv t (writeLengthLoop k t length).1 (faultOf (writeLengthLoop k t length).2) := by
  intro k
  induction k with
  | zero => intro t; exact TraceInv_refl _ _
  | succ k ih =>
    intro t
    simp only [writeLengthLoop]
    have h1 := writeByte_trace t
      ((length &&& intToSizeT (shl32 255 (k * 8))) >>> (k * 8))
    rcases hr : writeByte t ((length &&& intToSizeT (shl32 255 (k * 8))) >>> (k * 8))
      with ⟨t1, e | u⟩ <;> rw [hr] at h1 <;> simp only [] at h1 ⊢
    · exact h1
    · exact TraceInv_trans h1 (ih t1)

theorem writeLength_trace (t : Sys) (length k : Nat) :
    TraceInv t (writeLength t length k).1 (faultOf (writeLength t length k).2) := by
  unfold writeLength
  split
  · exact TraceInv_refl _ _
  · split
    · exact TraceInv_refl _ _
    · exact writeLengthLoop_trace length k t

theorem writeCommand_trace (t : Sys) (cmd length : Nat) :
    TraceInv t (writeCommand t cmd length).1 (faultOf (writeCommand t cmd length).2) := by
  unfold writeCommand
  have h1 := writeByte_trace t VERSION
  rcases hr1 : writeByte t VERSION with ⟨t1, e | u⟩ <;> rw [hr1] at h1 <;>
    simp only [] at h1 ⊢
  · exact h1
  have h2 := writeByte_trace t1 cmd
  rcases hr2 : writeByte t1 cmd with ⟨t2, e | u⟩ <;> rw [hr2] at h2 <;>
    simp only [] at h2 ⊢
  · exact TraceInv_trans h1 h2
  · exact TraceInv_trans h1 (TraceInv_trans h2 (writeLength_trace t2 length 3))

theorem readByte_trace (t : Sys) : TraceInv t (readByte t).1 (faultOf (readByte t).2) := by
  unfold readByte
  have h := read_trace t [0] 1
  rcases hr : read t [0] 1 with ⟨t1, e | buf⟩ <;> rw [hr] at h <;> simp only [] at h ⊢ <;>
    exact h

theorem readLength_trace (t : Sys) (k : Nat) :
    TraceInv t (readLength t k).1 (faultOf (readLength t k).2) := by
  unfold readLength
  have h := read_trace t (List.replicate k 0) k
  rcases hr : read t (List.replicate k 0) k with ⟨t1, e | buf⟩ <;> rw [hr] at h <;>
    simp only [] at h ⊢ <;> exact h

theorem readString_trace (t : Sys) (k : Nat) :
    TraceInv t (readString t k).1 (faultOf (readString t k).2) := by
  unfold readString
  have h := read_trace t (List.replicate k 0) k
  rcases hr : read t (List.replicate k 0) k with ⟨t1, e | buf⟩ <;> rw [hr] at h <;>
    simp only [] at h ⊢ <;> exact h

theorem report_trace (S : Nat) (t : Sys) (code length : Nat) (data : List Nat) :
    (report S t code length data).1.trace = t.trace ∧
    (report S t code length data).2 ≠ .error .assertWrite ∧
    (report S t code length data).2 ≠ .error .assertRead := by
  unfold report
  simp only []
  split
  · split <;> exact ⟨rfl, by simp, by simp⟩
  · exact ⟨rfl, by simp, by simp⟩

theorem TraceInv_quiet {t t1 : Sys} {f : Option Fault} (h : t1.trace = t.trace) :
    TraceInv t t1 f :=
  ⟨[], by simp [h], Inv_nil f⟩

theorem TraceInv_weaken {t t1 : Sys} {f : Option Fault} (g : Option Fault)
    (hf : f ≠ some .assertWrite ∧ f ≠ some .assertRead) (h : TraceInv t t1 f) :
    TraceInv t t1 g := by
  obtain ⟨seg, e, i⟩ := h
  have hall := Inv_allPos seg f hf i
  refine ⟨seg, e, ?_⟩
  have := Inv_append seg [] g hall (Inv_nil g)
  simpa using this

theorem readResponse_trace (S : Nat) (t : Sys) :
    TraceInv t (readResponse S t).1 (faultOf (readResponse S t).2) := by
  unfold readResponse
  have h1 := readByte_trace t
  rcases hr1 : readByte t with ⟨t1, e | version⟩ <;> rw [hr1] at h1 <;> simp only [] at h1 ⊢
  · exact h1
  split
  · exact TraceInv_weaken _ (by simp [faultOf]) h1
  have h2 := readByte_trace t1
  rcases hr2 : readByte t1 with ⟨t2, e | code⟩ <;> rw [hr2] at h2 <;> simp only [] at h2 ⊢
  · exact TraceInv_trans h1 h2
  have h3 := readLength_trace t2 3
  rcases hr3 : readLength t2 3 with ⟨t3, e | length⟩ <;> rw [hr3] at h3 <;>
    simp only [] at h3 ⊢
  · exact TraceInv_trans h1 (TraceInv_trans h2 h3)
  have h4 := readString_trace t3 length
  rcases hr4 : readString t3 length with ⟨t4, e | data⟩ <;> rw [hr4] at h4 <;>
    simp only [] at h4 ⊢
  · exact TraceInv_trans h1 (TraceInv_trans h2 (TraceInv_trans h3 h4))
  have h5 := report_trace S t4 code length data
  have h14 : TraceInv t t4 none :=
    TraceInv_trans h1 (TraceInv_trans h2 (TraceInv_trans h3 h4))
  rcases hr5 : report S t4 code length data with ⟨t5, e | u⟩ <;> rw [hr5] at h5 <;>
    simp only [] at h5 ⊢
  · exact TraceInv_trans h14 (TraceInv_quiet h5.1)
  · exact TraceInv_trans h14 (TraceInv_quiet h5.1)

theorem uploadBundle_trace (U S : Nat) (t : Sys) (bundle : List Nat) :
    TraceInv t (uploadBundle U S t bundle).1 (faultOf (uploadBundle U S t bundle).2) := by
  unfold uploadBundle
  have h1 := writeCommand_trace t U bundle.length
  rcases hr1 : writeCommand t U bundle.length with ⟨t1, e | u⟩ <;> rw [hr1] at h1 <;>
    simp only [] at h1 ⊢
  · exact h1
  have h2 := write_trace t1 bundle bundle.length
  rcases hr2 : write t1 bundle bundle.length with ⟨t2, e | u⟩ <;> rw [hr2] at h2 <;>
    simp only [] at h2 ⊢
  · exact TraceInv_trans h1 h2
  · exact TraceInv_trans h1 (TraceInv_trans h2 (readResponse_trace S t2))

theorem Inv_fatal (pre post : List Call) (c : Call) (f : Option Fault)
    (h : Inv (pre ++ c :: post) f) (hc : toInt32 c.ret ≤ 0) :
    post = [] ∧ f = some (ioFault c) := by
  have hp : post = [] := by
    by_contra hne
    obtain ⟨init, l, hl⟩ : ∃ init l, post = init ++ [l] := by
      rcases List.eq_nil_or_concat post with h0 | ⟨init, l, h1⟩
      · exact absurd h0 hne
      · exact ⟨init, l, by rw [h1, List.concat_eq_append]⟩
    have hd : (pre ++ c :: post).dropLast = pre ++ c :: init := by
      rw [hl, show pre ++ c :: (init ++ [l]) = (pre ++ c :: init) ++ [l] by simp]
      exact List.dropLast_concat
    have := h.1 c (by rw [hd]; simp)
    omega
  subst hp
  refine ⟨rfl, h.2 c ?_ hc⟩
  simp

/-! ## C7 -/

theorem faultOf_eq_some {α : Type} (r : Except Fault α) (e : Fault)
    (h : faultOf r = some e) : r = .error e := by
  cases r with
  | ok a => simp [faultOf] at h
  | error e1 => simp [faultOf] at h; rw [h]

/-- C7: in every exchange, a system call of `write` or `read` whose count `n`
(the return value as stored in `int n`) is zero or negative is the last call
on the socket: no call follows it in the trace, and `uploadBundle` ends with
the assertion `n > 0` of the loop that made the call instead of completing. -/
theorem no_progress_call_is_fatal (UPLOAD_BUNDLE SUBMITTED : Nat) (t : Sys)
    (bundle : List Nat) (pre post : List Call) (c : Call)
    (htr : (uploadBundle UPLOAD_BUNDLE SUBMITTED t bundle).1.trace
      = t.trace ++ (pre ++ c :: post))
    (hc : toInt32 c.ret ≤ 0) :
    post = [] ∧
    (uploadBundle UPLOAD_BUNDLE SUBMITTED t bundle).2
      = .error (if c.isWrite then .assertWrite else .assertRead) := by
  obtain ⟨seg, hseg, hinv⟩ := uploadBundle_trace UPLOAD_BUNDLE SUBMITTED t bundle
  rw [htr] at hseg
  have hs : seg = pre ++ c :: post := (List.append_cancel_left hseg).symm
  rw [hs] at hinv
  obtain ⟨h1, h2⟩ := Inv_fatal pre post c _ hinv hc
  exact ⟨h1, faultOf_eq_some _ _ h2⟩

/-- Witness for C7: a two-byte bundle over a socket that moves one byte per
call and makes no progress in its seventh call (the second payload byte). -/
theorem no_progress_call_is_fatal_witness :
    ([] : List Call) = [] ∧
    (uploadBundle 1 2 (Sys.start (fun i => if i = 6 then 0 else 1) []) [7, 8]).2
      = .error .assertWrite :=
  no_progress_call_is_fatal 1 2 (Sys.start (fun i => if i = 6 then 0 else 1) []) [7, 8]
    [⟨true, 1, 1, [0]⟩, ⟨true, 1, 1, [1]⟩, ⟨true, 1, 1, [0]⟩, ⟨true, 1, 1, [0]⟩,
      ⟨true, 1, 1, [2]⟩, ⟨true, 2, 1, [7]⟩] [] ⟨true, 1, 0, []⟩ (by decide) (by decide)

/-! ## Counts of `2^31` bytes and more in one call -/

theorem writeLoop_step (fuel : Nat) (script : Nat → Int) (inc wire : List Nat)
    (trace : List Call) (out : List String) (buf : List Nat) (length offset m k next : Nat)
    (h : offset < length) (hk : script trace.length = (k : Int)) (hk0 : 0 < k)
    (hm : min k (length - offset) = m)
    (hpos : 0 < toInt32 (m : Int))
    (hnext : (offset + (toInt32 (m : Int)).toNat) % 18446744073709551616 = next) :
    writeLoop (fuel + 1) (Sys.mk script inc wire trace out) buf length offset =
      writeLoop fuel
        (Sys.mk script inc (wire ++ (buf.drop offset).take m)
          (trace ++ [⟨true, length - offset, (m : Nat), (buf.drop offset).take m⟩]) out)
        buf length next := by
  have hk1 : 0 < (Sys.mk script inc wire trace out).script
      (Sys.mk script inc wire trace out).trace.length := by
    show 0 < script trace.length
    rw [hk]; exact_mod_cast hk0
  rw [writeLoop_succ _ _ _ _ _ h, sysWrite_move _ _ _ hk1]
  simp only [hk, Int.toNat_ofNat, hm, hpos, if_true, hnext]

theorem write_int_wraparound (buf : List Nat) (hb : buf.length = 4294967297) :
    (write (Sys.start greedyThenChunks []) buf 4294967297).2 = .ok () ∧
    (write (Sys.start greedyThenChunks []) buf 4294967297).1.wire.length = 8589934593 := by
  have hw : write (Sys.start greedyThenChunks []) buf 4294967297
      = writeLoop (4294967292 + 1 + 1 + 1 + 1 + 1) (Sys.mk greedyThenChunks [] [] [] []) buf
          4294967297 0 := rfl
  rw [hw]
  rw [writeLoop_step _ _ _ _ _ _ _ _ 0 4294967297 4294967297 1 (by decide) rfl (by decide)
    (by decide) (by decide) (by decide)]
  rw [writeLoop_step _ _ _ _ _ _ _ _ 1 1073741824 1073741824 1073741825 (by decide) rfl
    (by decide) (by decide) (by decide) (by decide)]
  rw [writeLoop_step _ _ _ _ _ _ _ _ 1073741825 1073741824 1073741824 2147483649 (by decide)
    rfl (by decide) (by decide) (by decide) (by decide)]
  rw [writeLoop_step _ _ _ _ _ _ _ _ 2147483649 1073741824 1073741824 3221225473 (by decide)
    rfl (by decide) (by decide) (by decide) (by decide)]
  rw [writeLoop_step _ _ _ _ _ _ _ _ 3221225473 1073741824 1073741824 4294967297 (by decide)
    rfl (by decide) (by decide) (by decide) (by decide)]
  rw [writeLoop_done _ _ _ _ _ (by decide)]
  refine ⟨rfl, ?_⟩
  simp only [List.nil_append, List.length_append, List.length_take, List.length_drop, hb]
  decide

/-- Beyond what the callers pass, on sockets that accept between 1 and the
requested number of bytes in every call.  First scenario: a buffer of `2^31`
bytes all accepted by the first call; the count stored in `int n` is
negative and `write` ends in `assert(n > 0)` instead of returning.  Second
scenario: a buffer of `2^32 + 1` bytes all accepted by the first call; `n` is
1, the loop offers the bytes from offset 1 again, and `write` returns after
the socket has accepted `2^33 + 1` bytes, not the `2^32 + 1` of the buffer. -/
theorem write_beyond_int_range :
    ((List.replicate 2147483648 0).length = 2147483648 ∧
      (∀ i, 1 ≤ (Sys.start (fun _ => 2147483648) []).script i) ∧
      (write (Sys.start (fun _ => 2147483648) []) (List.replicate 2147483648 0) 2147483648).2
        = .error .assertWrite ∧
      toInt32 2147483648 = -2147483648) ∧
    ((List.replicate 4294967297 0).length = 4294967297 ∧
      (∀ i, 1 ≤ (Sys.start greedyThenChunks []).script i) ∧
      (write (Sys.start greedyThenChunks []) (List.replicate 4294967297 0) 4294967297).2
        = .ok () ∧
      (write (Sys.start greedyThenChunks []) (List.replicate 4294967297 0)
        4294967297).1.wire.length = 8589934593 ∧
      toInt32 4294967297 = 1) :=
  ⟨⟨List.length_replicate _ _, fun _ => (by decide : (1 : Int) ≤ 2147483648),
      write_int_overflow _ _ rfl, by decide⟩,
    ⟨List.length_replicate _ _,
      fun i => (by unfold Sys.start greedyThenChunks; dsimp only; split <;> decide),
      (write_int_wraparound _ (List.length_replicate _ _)).1,
      (write_int_wraparound _ (List.length_replicate _ _)).2, by decide⟩⟩

/-! ## Runs of system calls and the bytes they move -/

theorem moved_append (s1 s2 : List Call) : moved (s1 ++ s2) = moved s1 ++ moved s2 := by
  induction s1 with
  | nil => rfl
  | cons c cs ih => simp [moved, ih]

theorem moved_single (c : Call) : moved [c] = c.data := by simp [moved]

theorem writeLoop_run (buf : List Nat) (length : Nat) (hl : length < 2147483648) :
    ∀ (fuel : Nat) (t : Sys) (offset : Nat), offset ≤ length →
      ∃ seg,
        (writeLoop fuel t buf length offset).1
          = { t with wire := t.wire ++ moved seg, trace := t.trace ++ seg } ∧
        (∀ c ∈ seg, c.isWrite = true ∧ 1 ≤ c.req ∧ c.req ≤ length - offset) ∧
        moved seg <+: (buf.drop offset).take (length - offset) ∧
        ((writeLoop fuel t buf length offset).2 = .ok () →
          moved seg = (buf.drop offset).take (length - offset)) := by
  intro fuel
  induction fuel with
  | zero =>
    intro t offset ho
    refine ⟨[], ?_, ?_, ?_, ?_⟩
    · by_cases hlt : offset < length <;> simp [writeLoop, hlt, moved]
    · intro c hc; simp at hc
    · simp [moved]
    · intro hok
      by_cases hlt : offset < length
      · simp [writeLoop, hlt] at hok
      · simp [moved, show length - offset = 0 by omega]
  | succ fuel ih =>
    intro t offset ho
    by_cases hlt : offset < length
    · rw [writeLoop_succ _ _ _ _ _ hlt]
      rcases le_or_lt (t.script t.trace.length) 0 with hk | hk
      · have hf := toInt32_failValue (t.script t.trace.length)
        rw [sysWrite_fail _ _ _ hk]
        simp only [not_lt.mpr hf, if_false]
        refine ⟨[⟨true, length - offset, failValue (t.script t.trace.length), []⟩],
          by simp [moved], ?_, by simp [moved], by simp⟩
        intro c hc; simp at hc; subst hc; exact ⟨rfl, by simp; omega, by simp⟩
      · rw [sysWrite_move _ _ _ hk]
        simp only []
        have hm1 : 1 ≤ min (t.script t.trace.length).toNat (length - offset) := by omega
        have hm3 := Nat.min_le_right (t.script t.trace.length).toNat (length - offset)
        generalize min (t.script t.trace.length).toNat (length - offset) = m at *
        have hn : toInt32 (m : Int) = m := toInt32_small _ (by omega) (by omega)
        have hpos : (0 : Int) < m := by omega
        have hoff : (offset + m) % 18446744073709551616 = offset + m :=
          Nat.mod_eq_of_lt (by omega)
        simp only [hn, hpos, if_true, Int.toNat_ofNat, hoff]
        obtain ⟨seg, h1, h2, h3, h4⟩ := ih
          (Sys.mk t.script t.incoming (t.wire ++ (buf.drop offset).take m)
            (t.trace ++ [⟨true, length - offset, (m : Nat), (buf.drop offset).take m⟩]) t.out)
          (offset + m) (by omega)
        have hsplit := slice_split buf offset m length hm3
        refine ⟨⟨true, length - offset, (m : Nat), (buf.drop offset).take m⟩ :: seg,
          ?_, ?_, ?_, ?_⟩
        · rw [h1]; simp [moved]
        · intro c hc
          rcases List.mem_cons.mp hc with hc | hc
          · subst hc; exact ⟨rfl, by simp; omega, by simp⟩
          · obtain ⟨a, b, d⟩ := h2 c hc
            exact ⟨a, b, by omega⟩
        · simp only [moved]
          rw [← hsplit]
          exact (List.prefix_append_right_inj _).mpr h3
        · intro hok
          simp only [moved]
          rw [h4 hok, hsplit]
    · rw [writeLoop_done _ _ _ _ _ (not_lt.mp hlt)]
      refine ⟨[], by simp [moved], ?_, by simp [moved], ?_⟩
      · intro c hc; simp at hc
      · intro _; simp [moved, show length - offset = 0 by omega]

theorem readLoop_run (length : Nat) (hl : length < 2147483648) :
    ∀ (fuel : Nat) (t : Sys) (buf : List Nat) (offset : Nat), buf.length = length →
      offset ≤ length →
      ∃ seg rest,
        t.incoming = moved seg ++ rest ∧
        (readLoop fuel t buf length offset).1
          = { t with incoming := rest, trace := t.trace ++ seg } ∧
        (∀ c ∈ seg, c.isWrite = false ∧ 1 ≤ c.req ∧ c.req ≤ length - offset) ∧
        (moved seg).length ≤ length - offset ∧
        (∀ b, (readLoop fuel t buf length offset).2 = .ok b →
          (moved seg).length = length - offset ∧ b = buf.take offset ++ moved seg) := by
  intro fuel
  induction fuel with
  | zero =>
    intro t buf offset hb ho
    refine ⟨[], t.incoming, by simp [moved], ?_, ?_, by simp [moved], ?_⟩
    · by_cases hlt : offset < length <;> simp [readLoop, hlt]
    · intro c hc; simp at hc
    · intro b hok
      by_cases hlt : offset < length
      · simp [readLoop, hlt] at hok
      · simp only [readLoop, hlt, if_false, Except.ok.injEq] at hok
        subst hok
        have hbo : buf.length ≤ offset := by omega
        simp [moved, show length - offset = 0 by omega, List.take_of_length_le hbo]
  | succ fuel ih =>
    intro t buf offset hb ho
    by_cases hlt : offset < length
    · rw [readLoop_succ _ _ _ _ _ hlt]
      rcases le_or_lt (t.script t.trace.length) 0 with hk | hk
      · have hf := toInt32_failValue (t.script t.trace.length)
        rw [sysRead_fail _ _ hk]
        simp only [not_lt.mpr hf, if_false]
        refine ⟨[⟨false, length - offset, failValue (t.script t.trace.length), []⟩],
          t.incoming, by simp [moved], rfl, ?_, by simp [moved], by simp⟩
        intro c hc; simp at hc; subst hc; exact ⟨rfl, by simp; omega, by simp⟩
      · rw [sysRead_move _ _ hk]
        simp only []
        have hm3 : min (min (t.script t.trace.length).toNat (length - offset))
            t.incoming.length ≤ length - offset := by omega
        have hm4 := Nat.min_le_right (min (t.script t.trace.length).toNat (length - offset))
          t.incoming.length
        generalize min (min (t.script t.trace.length).toNat (length - offset))
            t.incoming.length = m at *
        have hn : toInt32 (m : Int) = m := toInt32_small _ (by omega) (by omega)
        have hlen : (t.incoming.take m).length = m := by
          rw [List.length_take]; omega
        have hcall : ∀ c ∈ [(⟨false, length - offset, (m : Nat), t.incoming.take m⟩ : Call)],
            c.isWrite = false ∧ 1 ≤ c.req ∧ c.req ≤ length - offset := by
          intro c hc; simp at hc; subst hc; exact ⟨rfl, by simp; omega, by simp⟩
        simp only [hn, Int.toNat_ofNat, hlen]
        by_cases hm0 : m = 0
        · subst hm0
          simp only [Nat.cast_zero, lt_self_iff_false, if_false, List.take_zero, List.drop_zero]
          exact ⟨[⟨false, length - offset, 0, []⟩], t.incoming, by simp [moved], rfl,
            by simpa using hcall, by simp [moved], by simp⟩
        · have hpos : (0 : Int) < m := by omega
          have hoff : (offset + m) % 18446744073709551616 = offset + m :=
            Nat.mod_eq_of_lt (by omega)
          simp only [hpos, if_true, hoff]
          obtain ⟨seg, rest, h0, h1, h2, h3, h4⟩ := ih
            (Sys.mk t.script (t.incoming.drop m) t.wire
              (t.trace ++ [⟨false, length - offset, (m : Nat), t.incoming.take m⟩]) t.out)
            (buf.take offset ++ t.incoming.take m ++ buf.drop (offset + m)) (offset + m)
            (by simp [List.length_append, List.length_take, List.length_drop]; omega)
            (by omega)
          have hb1 : (buf.take offset ++ t.incoming.take m ++ buf.drop (offset + m)).take
              (offset + m) = buf.take offset ++ t.incoming.take m := by
            rw [List.take_append_of_le_length (by simp [List.length_take]; omega)]
            rw [List.take_of_length_le (by simp [List.length_take]; omega)]
          refine ⟨⟨false, length - offset, (m : Nat), t.incoming.take m⟩ :: seg, rest,
            ?_, ?_, ?_, ?_, ?_⟩
          · simp only [moved, List.append_assoc]
            dsimp only at h0
            rw [← h0, List.take_append_drop]
          · rw [h1]; simp
          · intro c hc
            rcases List.mem_cons.mp hc with hc | hc
            · exact hcall c (by simp [hc])
            · obtain ⟨a, b, d⟩ := h2 c hc
              exact ⟨a, b, by omega⟩
          · simp only [moved, List.length_append, hlen]; omega
          · intro b hok
            obtain ⟨e1, e2⟩ := h4 b hok
            refine ⟨by simp only [moved, List.length_append, hlen]; omega, ?_⟩
            rw [e2, hb1]; simp [moved]
    · rw [readLoop_done _ _ _ _ _ (not_lt.mp hlt)]
      refine ⟨[], t.incoming, by simp [moved], by simp, ?_, by simp [moved], ?_⟩
      · intro c hc; simp at hc
      · intro b hok
        simp only [Except.ok.injEq] at hok
        subst hok
        have hbo : buf.length ≤ offset := by omega
        simp [moved, show length - offset = 0 by omega, List.take_of_length_le hbo]

/-! ## The runs of the operations -/

theorem WriteRun_refl (t : Sys) : WriteRun t t [] :=
  ⟨by simp [moved], by intro c hc; simp at hc⟩

theorem WriteRun_trans {t t1 t2 : Sys} {s1 s2 : List Call} (h1 : WriteRun t t1 s1)
    (h2 : WriteRun t1 t2 s2) : WriteRun t t2 (s1 ++ s2) := by
  obtain ⟨e1, k1⟩ := h1
  obtain ⟨e2, k2⟩ := h2
  refine ⟨?_, ?_⟩
  · rw [e2, e1]; simp [moved_append]
  · intro c hc
    rcases List.mem_append.mp hc with hc | hc
    · exact k1 c hc
    · exact k2 c hc

theorem ReadRun_refl (t : Sys) : ReadRun t t [] :=
  ⟨by simp [moved], by simp, rfl, rfl, by intro c hc; simp at hc⟩

theorem ReadRun_trans {t t1 t2 : Sys} {s1 s2 : List Call} (h1 : ReadRun t t1 s1)
    (h2 : ReadRun t1 t2 s2) : ReadRun t t2 (s1 ++ s2) := by
  obtain ⟨a1, b1, c1, d1, k1⟩ := h1
  obtain ⟨a2, b2, c2, d2, k2⟩ := h2
  refine ⟨?_, ?_, c2.trans c1, d2.trans d1, ?_⟩
  · rw [a1, a2]; simp [moved_append]
  · rw [b2, b1]; simp
  · intro c hc
    rcases List.mem_append.mp hc with hc | hc
    · exact k1 c hc
    · exact k2 c hc

theorem write_run (t : Sys) (buf : List Nat) (length : Nat) (hl : length < 2147483648) :
    ∃ seg, WriteRun t (write t buf length).1 seg ∧
      (∀ c ∈ seg, c.req ≤ length) ∧
      moved seg <+: buf.take length ∧
      ((write t buf length).2 = .ok () → moved seg = buf.take length) := by
  obtain ⟨seg, h1, h2, h3, h4⟩ := writeLoop_run buf length hl length t 0 (Nat.zero_le _)
  refine ⟨seg, ⟨h1, fun c hc => ⟨(h2 c hc).1, (h2 c hc).2.1⟩⟩,
    fun c hc => by simpa using (h2 c hc).2.2, by simpa using h3, ?_⟩
  intro hok
  simpa using h4 hok

theorem writeByte_run (t : Sys) (b : Nat) :
    ∃ seg, WriteRun t (writeByte t b).1 seg ∧ (∀ c ∈ seg, c.req = 1) ∧
      moved seg <+: [b % 256] ∧ ((writeByte t b).2 = .ok () → moved seg = [b % 256]) := by
  obtain ⟨seg, h1, h2, h3, h4⟩ := write_run t [b % 256] 1 (by decide)
  refine ⟨seg, h1, ?_, by simpa using h3, fun hok => by simpa using h4 hok⟩
  intro c hc
  have := h2 c hc
  have := (h1.2 c hc).2
  omega

theorem writeLengthLoop_run (length : Nat) :
    ∀ (k : Nat) (t : Sys),
      ∃ seg, WriteRun t (writeLengthLoop k t length).1 seg ∧ (∀ c ∈ seg, c.req = 1) ∧
        moved seg <+: lengthBytes length k ∧
        ((writeLengthLoop k t length).2 = .ok () → moved seg = lengthBytes length k) := by
  intro k
  induction k with
  | zero =>
    intro t
    exact ⟨[], WriteRun_refl t, by intro c hc; simp at hc, by simp [moved], by
      intro _; simp [moved, lengthBytes]⟩
  | succ k ih =>
    intro t
    simp only [writeLengthLoop]
    obtain ⟨s1, r1, q1, p1, o1⟩ := writeByte_run t
      ((length &&& intToSizeT (shl32 255 (k * 8))) >>> (k * 8))
    rcases hr : writeByte t ((length &&& intToSizeT (shl32 255 (k * 8))) >>> (k * 8))
      with ⟨t1, e | u⟩ <;> rw [hr] at r1 o1 <;> simp only [] at r1 o1 ⊢
    · refine ⟨s1, r1, q1, ?_, by intro h; cases h⟩
      exact p1.trans (by simp [lengthBytes])
    · obtain ⟨s2, r2, q2, p2, o2⟩ := ih t1
      have e1 := o1 trivial
      refine ⟨s1 ++ s2, WriteRun_trans r1 r2, ?_, ?_, ?_⟩
      · intro c hc
        rcases List.mem_append.mp hc with hc | hc
        · exact q1 c hc
        · exact q2 c hc
      · rw [moved_append, e1]
        simp only [lengthBytes, List.singleton_append]
        exact (List.prefix_cons_inj _).mpr p2
      · intro hok
        rw [moved_append, e1, o2 hok]
        simp [lengthBytes]

theorem writeLength_three_run (t : Sys) (length : Nat) :
    ∃ seg, WriteRun t (writeLength t length 3).1 seg ∧ (∀ c ∈ seg, c.req = 1) ∧
      moved seg <+: [length / 65536 % 256, length / 256 % 256, length % 256] ∧
      ((writeLength t length 3).2 = .ok () →
        length < 16777216 ∧
        moved seg = [length / 65536 % 256, length / 256 % 256, length % 256]) := by
  have hs : shl32 1 (3 * 8) = 16777216 := by decide
  by_cases hl : length < 16777216
  · simp only [writeLength, hs, hl, not_true_eq_false, if_false, Nat.reduceLeDiff]
    obtain ⟨seg, r, q, p, o⟩ := writeLengthLoop_run length 3 t
    rw [lengthBytes_three] at p o
    exact ⟨seg, r, q, p, fun hok => ⟨trivial, o hok⟩⟩
  · simp only [writeLength, hs, hl, not_false_eq_true, if_true, Nat.reduceLeDiff,
      not_true_eq_false, if_false]
    exact ⟨[], WriteRun_refl t, by intro c hc; simp at hc, by simp [moved], by
      intro h; cases h⟩

theorem writeCommand_run (t : Sys) (cmd length : Nat) :
    ∃ seg, WriteRun t (writeCommand t cmd length).1 seg ∧ (∀ c ∈ seg, c.req = 1) ∧
      moved seg <+: headerBytes cmd length ∧
      ((writeCommand t cmd length).2 = .ok () →
        length < 16777216 ∧ moved seg = headerBytes cmd length) := by
  unfold writeCommand
  obtain ⟨s1, r1, q1, p1, o1⟩ := writeByte_run t VERSION
  rcases hr1 : writeByte t VERSION with ⟨t1, e | u⟩ <;> rw [hr1] at r1 o1 <;>
    simp only [] at r1 o1 ⊢
  · refine ⟨s1, r1, q1, p1.trans ?_, by intro h; cases h⟩
    exact ⟨[cmd % 256, length / 65536 % 256, length / 256 % 256, length % 256], rfl⟩
  have e1 : moved s1 = [0] := o1 trivial
  obtain ⟨s2, r2, q2, p2, o2⟩ := writeByte_run t1 cmd
  rcases hr2 : writeByte t1 cmd with ⟨t2, e | u⟩ <;> rw [hr2] at r2 o2 <;>
    simp only [] at r2 o2 ⊢
  · refine ⟨s1 ++ s2, WriteRun_trans r1 r2, ?_, ?_, by intro h; cases h⟩
    · intro c hc
      rcases List.mem_append.mp hc with hc | hc
      · exact q1 c hc
      · exact q2 c hc
    · rw [moved_append, e1]
      simp only [headerBytes, List.singleton_append]
      refine (List.prefix_cons_inj _).mpr (p2.trans ?_)
      exact ⟨[length / 65536 % 256, length / 256 % 256, length % 256], rfl⟩
  have e2 : moved s2 = [cmd % 256] := o2 trivial
  obtain ⟨s3, r3, q3, p3, o3⟩ := writeLength_three_run t2 length
  refine ⟨s1 ++ s2 ++ s3, WriteRun_trans (WriteRun_trans r1 r2) r3, ?_, ?_, ?_⟩
  · intro c hc
    rcases List.mem_append.mp hc with hc | hc
    · rcases List.mem_append.mp hc with hc | hc
      · exact q1 c hc
      · exact q2 c hc
    · exact q3 c hc
  · rw [moved_append, moved_append, e1, e2]
    simp only [headerBytes, List.singleton_append, List.cons_append, List.nil_append]
    exact (List.prefix_cons_inj _).mpr ((List.prefix_cons_inj _).mpr p3)
  · intro hok
    obtain ⟨hl, e3⟩ := o3 hok
    refine ⟨hl, ?_⟩
    rw [moved_append, moved_append, e1, e2, e3]
    rfl

theorem read_run (t : Sys) (buf : List Nat) (length : Nat) (hl : length < 2147483648)
    (hb : buf.length = length) :
    ∃ seg, ReadRun t (read t buf length).1 seg ∧ (∀ c ∈ seg, c.req ≤ length) ∧
      (moved seg).length ≤ length ∧
      (∀ b, (read t buf length).2 = .ok b → (moved seg).length = length ∧ b = moved seg) := by
  obtain ⟨seg, rest, h0, h1, h2, h3, h4⟩ := readLoop_run length hl length t buf 0 hb
    (Nat.zero_le _)
  have h1r : (read t buf length).1 = { t with incoming := rest, trace := t.trace ++ seg } := h1
  refine ⟨seg, ⟨?_, ?_, ?_, ?_, ?_⟩, ?_, by simpa using h3, ?_⟩
  · rw [h1r]; exact h0
  · rw [h1r]
  · rw [h1r]
  · rw [h1r]
  · intro c hc; exact ⟨(h2 c hc).1, (h2 c hc).2.1⟩
  · intro c hc; simpa using (h2 c hc).2.2
  · intro b hok
    have := h4 b hok
    simpa using this

theorem readByte_run (t : Sys) :
    ∃ seg, ReadRun t (readByte t).1 seg ∧ (∀ c ∈ seg, c.req = 1) ∧
      (moved seg).length ≤ 1 ∧ (∀ v, (readByte t).2 = .ok v → moved seg = [v]) := by
  obtain ⟨seg, r, q, p, o⟩ := read_run t [0] 1 (by decide) rfl
  have hq : ∀ c ∈ seg, c.req = 1 := by
    intro c hc
    have := q c hc
    have := (r.2.2.2.2 c hc).2
    omega
  unfold readByte
  rcases hr : read t [0] 1 with ⟨t1, e | buf⟩ <;> rw [hr] at r o <;> simp only [] at r o ⊢
  · exact ⟨seg, r, hq, p, by intro v h; cases h⟩
  · refine ⟨seg, r, hq, p, ?_⟩
    intro v hv
    obtain ⟨e1, e2⟩ := o buf rfl
    simp only [Except.ok.injEq] at hv
    subst e2
    match hm : moved seg, e1 with
    | [x], _ => simp [hm] at hv; rw [hv]

theorem readLength_three_run (t : Sys) :
    ∃ seg, ReadRun t (readLength t 3).1 seg ∧ (∀ c ∈ seg, c.req ≤ 3) ∧
      (moved seg).length ≤ 3 ∧
      (∀ n, (readLength t 3).2 = .ok n →
        ∃ a b c, moved seg = [a, b, c] ∧
          (a < 256 → b < 256 → c < 256 → n = a * 65536 + b * 256 + c)) := by
  obtain ⟨seg, r, q, p, o⟩ := read_run t (List.replicate 3 0) 3 (by decide) (by simp)
  unfold readLength
  rcases hr : read t (List.replicate 3 0) 3 with ⟨t1, e | buf⟩ <;> rw [hr] at r o <;>
    simp only [] at r o ⊢
  · exact ⟨seg, r, q, p, by intro v h; cases h⟩
  · refine ⟨seg, r, q, p, ?_⟩
    intro n hn
    obtain ⟨e1, e2⟩ := o buf rfl
    simp only [Except.ok.injEq] at hn
    subst e2
    match hm : moved seg, e1 with
    | [a, b, c], _ =>
      refine ⟨a, b, c, rfl, ?_⟩
      intro ha hb hc
      rw [← hn]
      simp [hm, List.range_succ, Nat.shiftLeft_eq]
      omega

theorem readString_run (t : Sys) (length : Nat) (hl : length < 2147483648) :
    ∃ seg, ReadRun t (readString t length).1 seg ∧ (∀ c ∈ seg, c.req ≤ length) ∧
      (moved seg).length ≤ length ∧
      (∀ d, (readString t length).2 = .ok d → moved seg = d ∧ d.length = length) := by
  obtain ⟨seg, r, q, p, o⟩ := read_run t (List.replicate length 0) length hl (by simp)
  unfold readString
  rcases hr : read t (List.replicate length 0) length with ⟨t1, e | buf⟩ <;>
    rw [hr] at r o <;> simp only [] at r o ⊢
  · exact ⟨seg, r, q, p, by intro v h; cases h⟩
  · refine ⟨seg, r, q, p, ?_⟩
    intro d hd
    obtain ⟨e1, e2⟩ := o buf rfl
    simp only [Except.ok.injEq] at hd
    subst e2
    rw [← hd, ← e1, List.take_length]
    exact ⟨rfl, rfl⟩

theorem report_run (S : Nat) (t : Sys) (code length : Nat) (data : List Nat) :
    ReadRun t (report S t code length data).1 [] := by
  unfold report
  simp only []
  split
  · split <;> exact ReadRun_refl _
  · exact ReadRun_refl _

/-! ## The phases of the read side -/

theorem mem_of_ReadRun {t t1 : Sys} {seg : List Call} (h : ReadRun t t1 seg) (x : Nat)
    (hx : x ∈ moved seg) : x ∈ t.incoming := by
  rw [h.1]; exact List.mem_append_left _ hx

theorem bytes_of_ReadRun {t t1 : Sys} {seg : List Call} (h : ReadRun t t1 seg)
    (hb : ∀ x ∈ t.incoming, x < 256) : ∀ x ∈ t1.incoming, x < 256 := by
  intro x hx
  exact hb x (by rw [h.1]; exact List.mem_append_right _ hx)

/-- The read side of an exchange, phase by phase: the calls of `readResponse`
are those reading the version (`vr`), then the code (`cr`), then the length
(`lr`), then the data (`dr`). -/
theorem readResponse_run (S : Nat) (t : Sys) (hb : ∀ x ∈ t.incoming, x < 256) :
    ∃ vr cr lr dr,
      ReadRun t (readResponse S t).1 (vr ++ cr ++ lr ++ dr) ∧
      ((∀ c ∈ vr ++ cr, c.req = 1) ∧ (∀ c ∈ lr, c.req ≤ 3) ∧ (∀ c ∈ dr, c.req < 16777216)) ∧
      ((moved vr).length ≤ 1 ∧ (moved cr).length ≤ 1 ∧ (moved lr).length ≤ 3 ∧
        (moved dr).length < 16777216) ∧
      ((cr ≠ [] → moved vr = [0]) ∧ (lr ≠ [] → (moved cr).length = 1) ∧
        (dr ≠ [] → (moved lr).length = 3)) ∧
      (∀ resp, (readResponse S t).2 = .ok resp →
        moved vr = [0] ∧ moved cr = [resp.code] ∧ moved dr = resp.data ∧
        ∃ a b c, moved lr = [a, b, c] ∧ resp.data.length = a * 65536 + b * 256 + c) := by
  unfold readResponse
  obtain ⟨vr, r1, q1, p1, o1⟩ := readByte_run t
  rcases hr1 : readByte t with ⟨t1, e | version⟩ <;> rw [hr1] at r1 o1 <;>
    simp only [] at r1 o1 ⊢
  · refine ⟨vr, [], [], [], by simpa using r1, ⟨by simpa using q1, by simp, by simp⟩,
      ⟨p1, by simp [moved], by simp [moved], by simp [moved]⟩, ⟨by simp, by simp, by simp⟩, ?_⟩
    intro resp h; cases h
  have e1 := o1 version rfl
  split
  · refine ⟨vr, [], [], [], by simpa using r1, ⟨by simpa using q1, by simp, by simp⟩,
      ⟨p1, by simp [moved], by simp [moved], by simp [moved]⟩, ⟨by simp, by simp, by simp⟩, ?_⟩
    intro resp h; cases h
  rename_i hv
  have hv0 : version = 0 := by simpa [VERSION] using hv
  subst hv0
  obtain ⟨cr, r2, q2, p2, o2⟩ := readByte_run t1
  have r12 := ReadRun_trans r1 r2
  rcases hr2 : readByte t1 with ⟨t2, e | code⟩ <;> rw [hr2] at r2 r12 o2 <;>
    simp only [] at r2 r12 o2 ⊢
  · refine ⟨vr, cr, [], [], by simpa using r12, ⟨?_, by simp, by simp⟩,
      ⟨p1, p2, by simp [moved], by simp [moved]⟩, ⟨fun _ => e1, by simp, by simp⟩, ?_⟩
    · intro c hc
      rcases List.mem_append.mp hc with hc | hc
      · exact q1 c hc
      · exact q2 c hc
    · intro resp h; cases h
  have e2 := o2 code rfl
  have hq12 : ∀ c ∈ vr ++ cr, c.req = 1 := by
    intro c hc
    rcases List.mem_append.mp hc with hc | hc
    · exact q1 c hc
    · exact q2 c hc
  obtain ⟨lr, r3, q3, p3, o3⟩ := readLength_three_run t2
  have r123 := ReadRun_trans r12 r3
  rcases hr3 : readLength t2 3 with ⟨t3, e | length⟩ <;> rw [hr3] at r3 r123 o3 <;>
    simp only [] at r3 r123 o3 ⊢
  · refine ⟨vr, cr, lr, [], by simpa using r123, ⟨hq12, q3, by simp⟩,
      ⟨p1, p2, p3, by simp [moved]⟩, ⟨fun _ => e1, fun _ => by simp [e2], by simp⟩, ?_⟩
    intro resp h; cases h
  obtain ⟨a, b, c, e3, hn⟩ := o3 length rfl
  have hb2 := bytes_of_ReadRun r12 hb
  have hmem : ∀ x ∈ [a, b, c], x < 256 := by
    intro x hx
    exact hb2 x (mem_of_ReadRun r3 x (by rw [e3]; exact hx))
  have hlen := hn (hmem a (by simp)) (hmem b (by simp)) (hmem c (by simp))
  have ha := hmem a (by simp)
  have hb' := hmem b (by simp)
  have hc := hmem c (by simp)
  have hl24 : length < 16777216 := by omega
  obtain ⟨dr, r4, q4, p4, o4⟩ := readString_run t3 length (by omega)
  have r1234 := ReadRun_trans r123 r4
  have hq4 : ∀ c ∈ dr, c.req < 16777216 := fun c hc => lt_of_le_of_lt (q4 c hc) hl24
  have hp4 : (moved dr).length < 16777216 := lt_of_le_of_lt p4 hl24
  rcases hr4 : readString t3 length with ⟨t4, e | data⟩ <;> rw [hr4] at r4 r1234 o4 <;>
    simp only [] at r4 r1234 o4 ⊢
  · refine ⟨vr, cr, lr, dr, r1234, ⟨hq12, q3, hq4⟩, ⟨p1, p2, p3, hp4⟩,
      ⟨fun _ => e1, fun _ => by simp [e2], fun _ => by simp [e3]⟩, ?_⟩
    intro resp h; cases h
  obtain ⟨e4, e5⟩ := o4 data rfl
  have r5 := report_run S t4 code length data
  have rall := ReadRun_trans r1234 r5
  simp only [List.append_nil] at rall
  rcases hr5 : report S t4 code length data with ⟨t5, e | u⟩ <;> rw [hr5] at rall <;>
    simp only [] at rall ⊢
  · refine ⟨vr, cr, lr, dr, rall, ⟨hq12, q3, hq4⟩, ⟨p1, p2, p3, hp4⟩,
      ⟨fun _ => e1, fun _ => by simp [e2], fun _ => by simp [e3]⟩, ?_⟩
    intro resp h; cases h
  · refine ⟨vr, cr, lr, dr, rall, ⟨hq12, q3, hq4⟩, ⟨p1, p2, p3, hp4⟩,
      ⟨fun _ => e1, fun _ => by simp [e2], fun _ => by simp [e3]⟩, ?_⟩
    intro resp h
    simp only [Except.ok.injEq] at h
    subst h
    exact ⟨e1, e2, e4, a, b, c, e3, by rw [e5, hlen]⟩

/-! ## C12: the order of the transport operations -/

/-- C12: the transport operations of an exchange come in the order Sending,
AwaitingHeader, AwaitingPayload.  For every socket behaviour and every
incoming stream of bytes, the system calls of `uploadBundle` are, in this
order: one-byte writes of the header (`hw`), writes of the payload (`pw`),
reads of the version (`vr`), of the code (`cr`), of the three length bytes
(`lr`) and of the data (`dr`), and nothing after them.  What the writes moved
is a prefix of the header followed by a prefix of the payload; a payload
write happens only after the five header bytes were accepted, a read only
after all `5 + len(payload)` bytes were accepted; the code is read only after
the version byte 0, the length only after the code, the data only after the
three length bytes; and a normal return has read exactly version, code,
length and data. -/
theorem uploadBundle_phases (UPLOAD_BUNDLE SUBMITTED : Nat) (t : Sys) (bundle : List Nat)
    (hcmd : UPLOAD_BUNDLE < 256) (hb : ∀ x ∈ t.incoming, x < 256) :
    ∃ hw pw vr cr lr dr,
      (uploadBundle UPLOAD_BUNDLE SUBMITTED t bundle).1.trace
        = t.trace ++ (hw ++ pw ++ (vr ++ cr ++ lr ++ dr)) ∧
      ((∀ c ∈ hw ++ pw, c.isWrite = true) ∧ (∀ c ∈ vr ++ cr ++ lr ++ dr, c.isWrite = false)) ∧
      ((uploadBundle UPLOAD_BUNDLE SUBMITTED t bundle).1.wire
          = t.wire ++ (moved hw ++ moved pw) ∧
        t.incoming = moved vr ++ moved cr ++ moved lr ++ moved dr
          ++ (uploadBundle UPLOAD_BUNDLE SUBMITTED t bundle).1.incoming) ∧
      ((∀ c ∈ hw, c.req = 1) ∧
        moved hw <+: [0, UPLOAD_BUNDLE, bundle.length / 65536 % 256,
          bundle.length / 256 % 256, bundle.length % 256] ∧
        moved pw <+: bundle ∧
        (pw ≠ [] → moved hw = [0, UPLOAD_BUNDLE, bundle.length / 65536 % 256,
          bundle.length / 256 % 256, bundle.length % 256])) ∧
      (vr ++ cr ++ lr ++ dr ≠ [] →
        moved hw ++ moved pw = [0, UPLOAD_BUNDLE, bundle.length / 65536 % 256,
          bundle.length / 256 % 256, bundle.length % 256] ++ bundle ∧
        (moved hw ++ moved pw).length = 5 + bundle.length) ∧
      ((∀ c ∈ vr ++ cr, c.req = 1) ∧ (∀ c ∈ lr, c.req ≤ 3) ∧
        (moved vr).length ≤ 1 ∧ (moved cr).length ≤ 1 ∧ (moved lr).length ≤ 3 ∧
        (cr ≠ [] → moved vr = [0]) ∧ (lr ≠ [] → (moved cr).length = 1) ∧
        (dr ≠ [] → (moved lr).length = 3)) ∧
      (∀ resp, (uploadBundle UPLOAD_BUNDLE SUBMITTED t bundle).2 = .ok resp →
        moved vr = [0] ∧ moved cr = [resp.code] ∧ moved dr = resp.data ∧
        ∃ a b c, moved lr = [a, b, c] ∧ resp.data.length = a * 65536 + b * 256 + c) := by
  have hU : UPLOAD_BUNDLE % 256 = UPLOAD_BUNDLE := Nat.mod_eq_of_lt hcmd
  unfold uploadBundle
  obtain ⟨hw, r1, q1, p1, o1⟩ := writeCommand_run t UPLOAD_BUNDLE bundle.length
  simp only [headerBytes, hU] at p1 o1
  rcases hr1 : writeCommand t UPLOAD_BUNDLE bundle.length with ⟨t1, e | u⟩ <;>
    rw [hr1] at r1 o1 <;> simp only [] at r1 o1 ⊢
  · refine ⟨hw, [], [], [], [], [], by rw [r1.1]; simp,
      ⟨by simpa using fun c hc => (r1.2 c hc).1, by simp⟩,
      ⟨by rw [r1.1]; simp [moved], by rw [r1.1]; simp [moved]⟩,
      ⟨q1, p1, by simp [moved], by simp⟩, by simp,
      ⟨by simp, by simp, by simp [moved], by simp [moved], by simp [moved], by simp, by simp,
        by simp⟩, ?_⟩
    intro resp h; cases h
  obtain ⟨hl, e1⟩ := o1 trivial
  obtain ⟨pw, r2, q2, p2, o2⟩ := write_run t1 bundle bundle.length (by omega)
  simp only [List.take_length] at p2 o2
  have r12 := WriteRun_trans r1 r2
  rcases hr2 : write t1 bundle bundle.length with ⟨t2, e | u⟩ <;>
    rw [hr2] at r2 r12 o2 <;> simp only [] at r2 r12 o2 ⊢
  · refine ⟨hw, pw, [], [], [], [], by rw [r12.1]; simp,
      ⟨fun c hc => (r12.2 c hc).1, by simp⟩,
      ⟨by rw [r12.1]; simp [moved, moved_append], by rw [r12.1]; simp [moved]⟩,
      ⟨q1, p1, p2, fun _ => e1⟩, by simp,
      ⟨by simp, by simp, by simp [moved], by simp [moved], by simp [moved], by simp, by simp,
        by simp⟩, ?_⟩
    intro resp h; cases h
  have e2 := o2 trivial
  have hinc : t2.incoming = t.incoming := by rw [r12.1]
  obtain ⟨vr, cr, lr, dr, rr, ⟨qa, qb, _⟩, ⟨pa, pb, pc, _⟩, ⟨sa, sb, sc⟩, od⟩ :=
    readResponse_run SUBMITTED t2 (by rw [hinc]; exact hb)
  obtain ⟨ra, rb, rc, _, re⟩ := rr
  refine ⟨hw, pw, vr, cr, lr, dr, ?_, ⟨fun c hc => (r12.2 c hc).1, fun c hc => (re c hc).1⟩,
    ⟨?_, ?_⟩, ⟨q1, p1, p2, fun _ => e1⟩, ?_, ⟨qa, qb, pa, pb, pc, sa, sb, sc⟩, od⟩
  · rw [rb, r12.1]; simp
  · rw [rc, r12.1]; simp [moved_append]
  · rw [← hinc, ra]; simp [moved_append]
  · intro _
    rw [e1, e2]
    exact ⟨rfl, by simp only [List.length_append, List.length_cons, List.length_nil]⟩

/-- Witness for C12: the exchange of the spec's scenario over a socket that
moves one byte per call: ten writes, then nine reads. -/
theorem uploadBundle_phases_witness :
    ∃ hw pw vr cr lr dr,
      (uploadBundle 1 2 (Sys.start (fun _ => 1) [0, 2, 0, 0, 4, 1, 2, 3, 4])
          [104, 101, 108, 108, 111]).1.trace
        = (Sys.start (fun _ => 1) [0, 2, 0, 0, 4, 1, 2, 3, 4]).trace
          ++ (hw ++ pw ++ (vr ++ cr ++ lr ++ dr)) ∧
      ((∀ c ∈ hw ++ pw, c.isWrite = true) ∧
        (∀ c ∈ vr ++ cr ++ lr ++ dr, c.isWrite = false)) :=
  have ⟨hw, pw, vr, cr, lr, dr, h1, h2, _⟩ :=
    uploadBundle_phases 1 2 (Sys.start (fun _ => 1) [0, 2, 0, 0, 4, 1, 2, 3, 4])
      [104, 101, 108, 108, 111] (by decide) (by decide)
  ⟨hw, pw, vr, cr, lr, dr, h1, h2⟩

/-! ## C14 and C11 -/

/-- C14: whatever bytes the peer sends and whatever the socket does, a value
returned by `readLength(3)` is below `2^24`; every system call `readResponse`
makes is a read that requests fewer than `2^24` bytes, so the data bytes
requested and the size of the array in `readString` never exceed `2^24 - 1`,
and the data of a response that is returned is shorter than `2^24` bytes. -/
theorem readLength_three_bound (SUBMITTED : Nat) (t : Sys)
    (hb : ∀ x ∈ t.incoming, x < 256) :
    (∀ n, (readLength t 3).2 = .ok n → n < 16777216) ∧
    (∃ seg, (readResponse SUBMITTED t).1.trace = t.trace ++ seg ∧
      ∀ c ∈ seg, c.isWrite = false ∧ c.req < 16777216) ∧
    (∀ resp, (readResponse SUBMITTED t).2 = .ok resp → resp.data.length < 16777216) := by
  refine ⟨?_, ?_, ?_⟩
  · intro n hn
    obtain ⟨seg, r, _, _, o⟩ := readLength_three_run t
    obtain ⟨a, b, c, e, h⟩ := o n hn
    have hmem : ∀ x ∈ [a, b, c], x < 256 := fun x hx =>
      hb x (mem_of_ReadRun r x (by rw [e]; exact hx))
    have ha := hmem a (by simp)
    have hb' := hmem b (by simp)
    have hc := hmem c (by simp)
    have := h ha hb' hc
    omega
  · obtain ⟨vr, cr, lr, dr, rr, ⟨qa, qb, qc⟩, _, _, _⟩ := readResponse_run SUBMITTED t hb
    refine ⟨vr ++ cr ++ lr ++ dr, rr.2.1, ?_⟩
    intro c hc
    refine ⟨(rr.2.2.2.2 c hc).1, ?_⟩
    rcases List.mem_append.mp hc with hc | hc
    · rcases List.mem_append.mp hc with hc | hc
      · have := qa c hc; omega
      · have := qb c hc; omega
    · exact qc c hc
  · intro resp hresp
    obtain ⟨vr, cr, lr, dr, rr, _, ⟨_, _, _, pd⟩, _, od⟩ := readResponse_run SUBMITTED t hb
    obtain ⟨_, _, e, _⟩ := od resp hresp
    rw [← e]; exact pd

/-- Witness for C14: the largest length field, `ff ff ff`, one byte per call. -/
theorem readLength_three_bound_witness :
    (readLength (Sys.start (fun _ => 1) [255, 255, 255]) 3).2 = .ok 16777215 ∧
    16777215 < 16777216 :=
  ⟨by decide,
    (readLength_three_bound 0 (Sys.start (fun _ => 1) [255, 255, 255]) (by decide)).1
      16777215 (by decide)⟩

theorem report_eq (S : Nat) (t : Sys) (code length : Nat) (data : List Nat)
    (hlen : data.length < 4294967296) :
    report S t code length data =
      ({ t with out := t.out ++
          (("Response code is " ++ toString code ++ ", data length " ++ toString length)
            :: if code = S then ["Token is " ++ String.mk (hexChars data)] else []) },
        .ok ()) := by
  unfold report
  simp only [HexString_eq data hlen]
  split <;> simp

theorem readResponse_spec_out (S : Nat) (t : Sys) (c : Nat) (d r : List Nat) (hp : Progress t)
    (hd : d.length < 16777216)
    (hin : t.incoming =
      [0, c, d.length / 65536 % 256, d.length / 256 % 256, d.length % 256] ++ d ++ r) :
    (readResponse S t).2 = .ok ⟨c, d⟩ ∧
    (readResponse S t).1.out = t.out ++
      (("Response code is " ++ toString c ++ ", data length " ++ toString d.length)
        :: if c = S then ["Token is " ++ String.mk (hexChars d)] else []) := by
  have hin1 : t.incoming = 0 :: c :: d.length / 65536 % 256 :: d.length / 256 % 256
      :: d.length % 256 :: (d ++ r) := by simpa using hin
  unfold readResponse
  rw [readByte_progress t 0 _ hp hin1]
  simp only [VERSION, ne_eq, not_true_eq_false, if_false]
  rw [readByte_progress _ c (d.length / 65536 % 256 :: d.length / 256 % 256
      :: d.length % 256 :: (d ++ r)) (by exact hp) rfl]
  simp only []
  obtain ⟨h1, h2, h3⟩ := be3_lt d.length
  obtain ⟨tr3, e3⟩ := readLength_three_spec
    (Sys.mk t.script
      (d.length / 65536 % 256 :: d.length / 256 % 256 :: d.length % 256 :: (d ++ r))
      t.wire ((t.trace ++ [⟨false, 1, 1, [0]⟩]) ++ [⟨false, 1, 1, [c]⟩]) t.out)
    _ _ _ (d ++ r) (by exact hp) h1 h2 h3 rfl
  rw [e3, be3_value d.length hd]
  simp only []
  obtain ⟨tr4, e4⟩ := readString_spec
    (Sys.mk t.script (d ++ r) t.wire tr3 t.out) d.length (by omega) (by simp) (by exact hp)
  rw [e4]
  simp only [List.take_left', List.drop_left']
  rw [report_eq S (Sys.mk t.script r t.wire tr4 t.out) c d.length d (by omega)]
  exact ⟨rfl, rfl⟩

/-- C11: over a socket that moves at least one byte per call, a well-formed
response with version 0, any code `c` and any data `d` (shorter than `2^24`
bytes) is accepted whatever the code; `readResponse` prints the line with the
code and the data length, and after it a token line if and only if
`c = SUBMITTED`, the token being exactly `HexString(d)`; for the data
`[1, 2, 3, 4]` the token is "01020304". -/
theorem readResponse_reports (SUBMITTED : Nat) (t : Sys) (c : Nat) (d r : List Nat)
    (hp : Progress t) (hd : d.length < 16777216)
    (hin : t.incoming =
      [0, c, d.length / 65536 % 256, d.length / 256 % 256, d.length % 256] ++ d ++ r) :
    (readResponse SUBMITTED t).2 = .ok ⟨c, d⟩ ∧
    (∃ hex, HexString d = some hex ∧
      (c = SUBMITTED → (readResponse SUBMITTED t).1.out = t.out ++
        ["Response code is " ++ toString c ++ ", data length " ++ toString d.length,
          "Token is " ++ String.mk hex]) ∧
      (c ≠ SUBMITTED → (readResponse SUBMITTED t).1.out = t.out ++
        ["Response code is " ++ toString c ++ ", data length " ++ toString d.length])) ∧
    HexString [0x01, 0x02, 0x03, 0x04] = some "01020304".data ∧
    (∀ u : Sys, Progress u → u.incoming = [0, SUBMITTED, 0, 0, 4, 1, 2, 3, 4] →
      (readResponse SUBMITTED u).1.out = u.out ++
        ["Response code is " ++ toString SUBMITTED ++ ", data length 4",
          "Token is 01020304"]) := by
  obtain ⟨h1, h2⟩ := readResponse_spec_out SUBMITTED t c d r hp hd hin
  refine ⟨h1, ⟨hexChars d, HexString_eq d (by omega), ?_, ?_⟩, by decide, ?_⟩
  · intro hc; rw [h2]; simp [hc]
  · intro hc; rw [h2]; simp [hc]
  · intro u hu hin2
    obtain ⟨_, h3⟩ := readResponse_spec_out SUBMITTED u SUBMITTED [1, 2, 3, 4] [] hu
      (by decide) (by rw [hin2]; rfl)
    have e1 : "Token is " ++ String.mk (hexChars [1, 2, 3, 4]) = "Token is 01020304" := by
      decide
    have e2 : ", data length " ++ toString [1, 2, 3, 4].length = ", data length 4" := by
      decide
    rw [h3, e1, String.append_assoc, e2]
    simp only [if_true]

/-- Witness for C11: a reply with code 2 = SUBMITTED and with code 3. -/
theorem readResponse_reports_witness :
    (readResponse 2 (Sys.start (fun _ => 1) [0, 2, 0, 0, 4, 1, 2, 3, 4])).2
      = .ok ⟨2, [1, 2, 3, 4]⟩ ∧
    (readResponse 2 (Sys.start (fun _ => 1) [0, 3, 0, 0, 1, 9])).2 = .ok ⟨3, [9]⟩ :=
  ⟨(readResponse_reports 2 (Sys.start (fun _ => 1) [0, 2, 0, 0, 4, 1, 2, 3, 4]) 2 [1, 2, 3, 4] []
      (fun _ => Int.le_refl 1) (by decide) (by decide)).1,
    (readResponse_reports 2 (Sys.start (fun _ => 1) [0, 3, 0, 0, 1, 9]) 3 [9] []
      (fun _ => Int.le_refl 1) (by decide) (by decide)).1⟩

/-! ## C13 and C15 -/

theorem toInt32_pos_le (m : Nat) (h : 0 < toInt32 (m : Int)) :
    1 ≤ (toInt32 (m : Int)).toNat ∧ (toInt32 (m : Int)).toNat ≤ m := by
  unfold toInt32 at h ⊢
  omega

theorem writeLoop_bound (buf : List Nat) (length : Nat) (h64 : length < 18446744073709551616) :
    ∀ (fuel : Nat) (t : Sys) (offset : Nat), offset ≤ length → length - offset ≤ fuel →
      (writeLoop fuel t buf length offset).2 ≠ .error .diverge ∧
      (writeLoop fuel t buf length offset).1.trace.length
        ≤ t.trace.length + (length - offset) := by
  intro fuel
  induction fuel with
  | zero =>
    intro t offset ho hf
    rw [writeLoop_done _ _ _ _ _ (show length ≤ offset by omega)]
    exact ⟨by simp, by simp⟩
  | succ fuel ih =>
    intro t offset ho hf
    by_cases hlt : offset < length
    · rw [writeLoop_succ _ _ _ _ _ hlt]
      rcases le_or_lt (t.script t.trace.length) 0 with hk | hk
      · have hfv := toInt32_failValue (t.script t.trace.length)
        rw [sysWrite_fail _ _ _ hk]
        simp only [not_lt.mpr hfv, if_false]
        exact ⟨by simp, by simp; omega⟩
      · rw [sysWrite_move _ _ _ hk]
        simp only []
        have hm3 := Nat.min_le_right (t.script t.trace.length).toNat (length - offset)
        generalize min (t.script t.trace.length).toNat (length - offset) = m at *
        split
        · rename_i hpos
          obtain ⟨n1, n2⟩ := toInt32_pos_le m hpos
          generalize (toInt32 (m : Int)).toNat = n at *
          have hoff : (offset + n) % 18446744073709551616 = offset + n :=
            Nat.mod_eq_of_lt (by omega)
          rw [hoff]
          obtain ⟨i1, i2⟩ := ih
            (Sys.mk t.script t.incoming (t.wire ++ (buf.drop offset).take m)
              (t.trace ++ [⟨true, length - offset, (m : Nat), (buf.drop offset).take m⟩])
              t.out)
            (offset + n) (by omega) (by omega)
          refine ⟨i1, le_trans i2 ?_⟩
          simp only [List.length_append, List.length_cons, List.length_nil]
          omega
        · exact ⟨by simp, by simp; omega⟩
    · rw [writeLoop_done _ _ _ _ _ (not_lt.mp hlt)]
      exact ⟨by simp, by simp⟩

theorem readLoop_bound (length : Nat) (h64 : length < 18446744073709551616) :
    ∀ (fuel : Nat) (t : Sys) (buf : List Nat) (offset : Nat), offset ≤ length →
      length - offset ≤ fuel →
      (readLoop fuel t buf length offset).2 ≠ .error .diverge ∧
      (readLoop fuel t buf length offset).1.trace.length
        ≤ t.trace.length + (length - offset) := by
  intro fuel
  induction fuel with
  | zero =>
    intro t buf offset ho hf
    rw [readLoop_done _ _ _ _ _ (show length ≤ offset by omega)]
    exact ⟨by simp, by simp⟩
  | succ fuel ih =>
    intro t buf offset ho hf
    by_cases hlt : offset < length
    · rw [readLoop_succ _ _ _ _ _ hlt]
      rcases le_or_lt (t.script t.trace.length) 0 with hk | hk
      · have hfv := toInt32_failValue (t.script t.trace.length)
        rw [sysRead_fail _ _ hk]
        simp only [not_lt.mpr hfv, if_false]
        exact ⟨by simp, by simp; omega⟩
      · rw [sysRead_move _ _ hk]
        simp only []
        have hm3 : min (min (t.script t.trace.length).toNat (length - offset))
            t.incoming.length ≤ length - offset := by omega
        generalize min (min (t.script t.trace.length).toNat (length - offset))
            t.incoming.length = m at *
        split
        · rename_i hpos
          obtain ⟨n1, n2⟩ := toInt32_pos_le m hpos
          generalize (toInt32 (m : Int)).toNat = n at *
          have hoff : (offset + n) % 18446744073709551616 = offset + n :=
            Nat.mod_eq_of_lt (by omega)
          rw [hoff]
          obtain ⟨i1, i2⟩ := ih
            (Sys.mk t.script (t.incoming.drop m) t.wire
              (t.trace ++ [⟨false, length - offset, (m : Nat), t.incoming.take m⟩]) t.out)
            (buf.take offset ++ t.incoming.take m
              ++ buf.drop (offset + (t.incoming.take m).length))
            (offset + n) (by omega) (by omega)
          refine ⟨i1, le_trans i2 ?_⟩
          simp only [List.length_append, List.length_cons, List.length_nil]
          omega
        · exact ⟨by simp, by simp; omega⟩
    · rw [readLoop_done _ _ _ _ _ (not_lt.mp hlt)]
      exact ⟨by simp, by simp⟩

theorem uploadBundle_empty_wire (U S : Nat) (t : Sys) (r : CTResponse) (hU : U < 256)
    (hok : (uploadBundle U S t []).2 = .ok r) :
    (uploadBundle U S t []).1.wire = t.wire ++ [0, U, 0, 0, 0] := by
  unfold uploadBundle at hok ⊢
  have h1 := writeCommand_ok_state t U ([] : List Nat).length
  rcases hw1 : writeCommand t U ([] : List Nat).length with ⟨t1, e | u⟩ <;>
    rw [hw1] at h1 hok <;> simp only [] at h1 hok ⊢
  · simp at hok
  obtain ⟨_, tr1, h1⟩ := h1 trivial
  have ht1 := (Prod.mk.inj h1).1
  have hw : write t1 [] ([] : List Nat).length = (t1, .ok ()) := by
    simp [write, writeLoop]
  rw [hw] at hok ⊢
  simp only [] at hok ⊢
  rw [readResponse_wire, ht1]
  simp [Nat.mod_eq_of_lt hU]

/-- C13: the loops of `write` and `read` come to an end after at most
`length` system calls, for every behaviour of the socket and so in
particular when every call makes progress: they either return or stop at
their assertion, they never run on.  When every call makes progress (with
counts that fit the `int`) they return.  With `length = 0` they return at
once without any system call, so a successful upload of the empty bundle
has written exactly `[0, UPLOAD_BUNDLE, 0, 0, 0]`, and a response with data
length 0 is decoded with `data = []` after exactly 5 bytes were read. -/
theorem loops_terminate (t : Sys) (buf : List Nat) (length : Nat)
    (h64 : length < 18446744073709551616) :
    ((write t buf length).2 ≠ .error .diverge ∧
      (write t buf length).1.trace.length ≤ t.trace.length + length) ∧
    ((read t buf length).2 ≠ .error .diverge ∧
      (read t buf length).1.trace.length ≤ t.trace.length + length) ∧
    (Progress t → NoTrunc t length →
      (write t buf length).2 = .ok () ∧
      (buf.length = length → length ≤ t.incoming.length →
        (read t buf length).2 = .ok (t.incoming.take length))) ∧
    (write t buf 0 = (t, .ok ()) ∧ read t buf 0 = (t, .ok buf)) ∧
    (∀ (UPLOAD_BUNDLE SUBMITTED : Nat) (r : CTResponse), UPLOAD_BUNDLE < 256 →
      (uploadBundle UPLOAD_BUNDLE SUBMITTED t []).2 = .ok r →
      (uploadBundle UPLOAD_BUNDLE SUBMITTED t []).1.wire = t.wire ++ [0, UPLOAD_BUNDLE, 0, 0, 0]) ∧
    (∀ (SUBMITTED c : Nat) (rest : List Nat), Progress t →
      t.incoming = [0, c, 0, 0, 0] ++ rest →
      (readResponse SUBMITTED t).2 = .ok ⟨c, []⟩ ∧
      (readResponse SUBMITTED t).1.incoming = rest ∧
      t.incoming.length = 5 + (readResponse SUBMITTED t).1.incoming.length) := by
  refine ⟨?_, ?_, ?_, ?_, ?_, ?_⟩
  · have := writeLoop_bound buf length h64 length t 0 (Nat.zero_le _) (by omega)
    simpa [write] using this
  · have := readLoop_bound length h64 length t buf 0 (Nat.zero_le _) (by omega)
    simpa [read] using this
  · intro hp hnt
    obtain ⟨trw, ew⟩ := write_spec t buf length h64 hp hnt
    refine ⟨by rw [ew], ?_⟩
    intro hb hin
    obtain ⟨trr, er⟩ := read_spec t buf length h64 hb hin hp hnt
    rw [er]
  · exact ⟨by simp [write, writeLoop], by simp [read, readLoop]⟩
  · intro U S r hU hok
    exact uploadBundle_empty_wire U S t r hU hok
  · intro S c rest hp hin
    obtain ⟨tr, o, h⟩ := readResponse_spec S t c [] rest hp (by decide) (by rw [hin]; rfl)
    refine ⟨by rw [h], by rw [h], ?_⟩
    rw [h, hin]
    simp only [List.length_append, List.length_cons, List.length_nil]

/-- Witness for C13: three bytes written and read one byte per call. -/
theorem loops_terminate_witness :
    (write (Sys.start (fun _ => 1) [1, 2, 3]) [7, 8, 9] 3).2 ≠ .error .diverge ∧
    (write (Sys.start (fun _ => 1) [1, 2, 3]) [7, 8, 9] 3).1.trace.length
      ≤ (Sys.start (fun _ => 1) [1, 2, 3]).trace.length + 3 :=
  (loops_terminate (Sys.start (fun _ => 1) [1, 2, 3]) [7, 8, 9] 3 (by decide)).1

theorem nibble_injective :
    ∀ x < 16, ∀ y < 16, nibble.getD x '0' = nibble.getD y '0' → x = y := by
  decide

theorem hexChars_injective :
    ∀ (d1 d2 : List Nat), (∀ b ∈ d1, b < 256) → (∀ b ∈ d2, b < 256) →
      hexChars d1 = hexChars d2 → d1 = d2 := by
  intro d1
  induction d1 with
  | nil =>
    intro d2 _ _ h
    cases d2 with
    | nil => rfl
    | cons b r => simp [hexChars] at h
  | cons a r1 ih =>
    intro d2 h1 h2 h
    cases d2 with
    | nil => simp [hexChars] at h
    | cons b r2 =>
      simp only [hexChars, List.cons.injEq] at h
      obtain ⟨e1, e2, e3⟩ := h
      rw [high_nibble, high_nibble] at e1
      rw [low_nibble, low_nibble] at e2
      have ha := h1 a (by simp)
      have hb := h2 b (by simp)
      have k1 := nibble_injective _ (Nat.mod_lt _ (by decide)) _ (Nat.mod_lt _ (by decide)) e1
      have k2 := nibble_injective _ (Nat.mod_lt _ (by decide)) _ (Nat.mod_lt _ (by decide)) e2
      have hab : a = b := by omega
      have hr := ih r2 (fun x hx => h1 x (by simp [hx])) (fun x hx => h2 x (by simp [hx])) e3
      rw [hab, hr]

theorem HexString_some_length (d : List Nat) (s : List Char) (h : HexString d = some s) :
    d.length < 4294967296 := by
  by_contra hn
  have := HexStringLoop_wraps d (by omega) d.length 0 [] (by decide)
  unfold HexString at h
  rw [this] at h
  cases h

/-- C15: `HexString` is injective on byte sequences: if `HexString(d1)` and
`HexString(d2)` return the same string, then `d1 = d2`. -/
theorem HexString_injective (d1 d2 : List Nat) (s : List Char)
    (h1 : ∀ b ∈ d1, b < 256) (h2 : ∀ b ∈ d2, b < 256)
    (e1 : HexString d1 = some s) (e2 : HexString d2 = some s) : d1 = d2 := by
  rw [HexString_eq d1 (HexString_some_length d1 s e1)] at e1
  rw [HexString_eq d2 (HexString_some_length d2 s e2)] at e2
  exact hexChars_injective d1 d2 h1 h2 (Option.some.inj (e1.trans e2.symm))

/-- Witness for C15: the sequence `de ad` and its string. -/
theorem HexString_injective_witness : [0xde, 0xad] = [0xde, 0xad] :=
  HexString_injective [0xde, 0xad] [0xde, 0xad] "dead".data (by decide) (by decide)
    (by decide) (by decide)

/-! ## writeLength for the widths 1 to 3 -/

theorem lengthBytes_two (length : Nat) :
    lengthBytes length 2 = [length / 256 % 256, length % 256] := by
  have e1 : ((length &&& 65280) >>> 8) % 256 = length / 256 % 256 := by
    simpa using and_mask_shift length 8
  have e0 : (length &&& 255) % 256 = length % 256 := by
    simpa using and_mask_shift length 0
  have hs1 : intToSizeT (shl32 255 8) = 65280 := by decide
  have hs0 : intToSizeT (shl32 255 0) = 255 := by decide
  simp only [lengthBytes, hs1, hs0, Nat.reduceMul, Nat.zero_mul, Nat.shiftRight_zero, e1, e0]

theorem lengthBytes_one (length : Nat) : lengthBytes length 1 = [length % 256] := by
  have e0 : (length &&& 255) % 256 = length % 256 := by
    simpa using and_mask_shift length 0
  have hs0 : intToSizeT (shl32 255 0) = 255 := by decide
  simp only [lengthBytes, hs0, Nat.zero_mul, Nat.shiftRight_zero, e0]

/-- For the widths 1, 2 and 3 `writeLength` is the big-endian encoder with
the range check: over a socket that moves at least one byte per call it
fails exactly when `n` does not fit in `w` bytes and otherwise emits the `w`
bytes of `n`, most significant first. -/
theorem writeLength_narrow (t : Sys) (n w : Nat) (hp : Progress t) (h1 : 1 ≤ w) (h3 : w ≤ 3) :
    (2 ^ (8 * w) ≤ n → writeLength t n w = (t, .error .assertLength)) ∧
    (n < 2 ^ (8 * w) →
      (writeLength t n w).2 = .ok () ∧
      (writeLength t n w).1.wire = t.wire ++
        (if w = 1 then [n % 256] else if w = 2 then [n / 256 % 256, n % 256]
          else [n / 65536 % 256, n / 256 % 256, n % 256])) := by
  have hw : w = 1 ∨ w = 2 ∨ w = 3 := by omega
  have hs1 : shl32 1 (1 * 8) = 256 := by decide
  have hs2 : shl32 1 (2 * 8) = 65536 := by decide
  have hs3 : shl32 1 (3 * 8) = 16777216 := by decide
  rcases hw with rfl | rfl | rfl
  · constructor
    · intro h
      have : ¬ n < 256 := by norm_num at h; omega
      simp [writeLength, hs1, this]
    · intro h
      have hn : n < 256 := by norm_num at h; omega
      have e : writeLength t n 1 = writeLengthLoop 1 t n := by simp [writeLength, hs1, hn]
      rw [e]
      have hok := writeLengthLoop_progress n 1 t hp
      obtain ⟨tr, htr⟩ := writeLengthLoop_ok_state n 1 t hok
      rw [htr, lengthBytes_one]
      exact ⟨rfl, by simp⟩
  · constructor
    · intro h
      have : ¬ n < 65536 := by norm_num at h; omega
      simp [writeLength, hs2, this]
    · intro h
      have hn : n < 65536 := by norm_num at h; omega
      have e : writeLength t n 2 = writeLengthLoop 2 t n := by simp [writeLength, hs2, hn]
      rw [e]
      have hok := writeLengthLoop_progress n 2 t hp
      obtain ⟨tr, htr⟩ := writeLengthLoop_ok_state n 2 t hok
      rw [htr, lengthBytes_two]
      exact ⟨rfl, by simp⟩
  · constructor
    · intro h
      have : ¬ n < 16777216 := by norm_num at h; omega
      simp [writeLength, hs3, this]
    · intro h
      have hn : n < 16777216 := by norm_num at h; omega
      have e : writeLength t n 3 = writeLengthLoop 3 t n := by simp [writeLength, hs3, hn]
      rw [e]
      have hok := writeLengthLoop_progress n 3 t hp
      obtain ⟨tr, htr⟩ := writeLengthLoop_ok_state n 3 t hok
      rw [htr, lengthBytes_three]
      exact ⟨rfl, by simp⟩

end CT
